import Mathlib

/-!
Verification development for the krunker-client repository.

The development shallowly embeds the Rust sources (src/socket.rs, src/map.rs,
src/player.rs, src/messages.rs, src/utils.rs) into Lean:
* machine integers are modelled as `Nat`/`Int` with explicit wrap-arounds where
  the source masks or wraps;
* `f32` arithmetic on positions, rotations and grid bounds is idealised as
  exact rational arithmetic over `ℚ` (the concrete inputs exercised below are
  far from any `f32` rounding boundary that would change a comparison);
* fallible code returns `Option`/`Except`; places where the Rust source has a
  runtime abort
  (unwrap, out-of-bounds slice or array index) are modelled by an explicit
  `panicked` outcome or are kept outside the hypotheses of the theorems;
* the external crates `rmp_serde` (MessagePack) and `pathfinding` (astar) are
  not part of the repository; they are modelled from the specification.
-/

namespace Krunker

/-! ## MessagePack model

Modelled from the spec: the `rmp_serde` MessagePack codec used by
`Socket::encode_message` / `Socket::decode_message` (src/socket.rs) is an
external crate.  Values are the msgpack-encodable values the client exchanges
(nil, booleans, unsigned integers, strings, arrays); a Rust string is
represented by its UTF-8 byte sequence.  The byte-level format follows the
MessagePack specification as implemented by `rmp`. -/

inductive MPVal : Type where
  | nil : MPVal
  | bool (b : Bool) : MPVal
  | uint (n : Nat) : MPVal
  | str (s : List Nat) : MPVal
  | arr (vs : List MPVal) : MPVal
/-- Big-endian byte encoding of `n` in `k` bytes (most significant first). -/
def beBytes : Nat → Nat → List Nat
  | 0, _ => []
  | k + 1, n => beBytes k (n / 256) ++ [n % 256]

/-- Fold a big-endian byte list back into a number. -/
def beVal (bytes : List Nat) : Nat := bytes.foldl (fun a b => a * 256 + b) 0

mutual

/-- MessagePack encoding of a value (minimal-width headers, as `rmp` emits). -/
def mpEncode : MPVal → List Nat
  | .nil => [0xc0]
  | .bool false => [0xc2]
  | .bool true => [0xc3]
  | .uint n =>
      if n < 128 then [n]
      else if n < 256 then [0xcc, n]
      else if n < 65536 then 0xcd :: beBytes 2 n
      else if n < 4294967296 then 0xce :: beBytes 4 n
      else 0xcf :: beBytes 8 n
  | .str s =>
      (if s.length < 32 then [0xa0 + s.length]
       else if s.length < 256 then [0xd9, s.length]
       else if s.length < 65536 then 0xda :: beBytes 2 s.length
       else 0xdb :: beBytes 4 s.length) ++ s
  | .arr vs =>
      (if vs.length < 16 then [0x90 + vs.length]
       else if vs.length < 65536 then 0xdc :: beBytes 2 vs.length
       else 0xdd :: beBytes 4 vs.length) ++ mpEncodeList vs

/-- MessagePack encoding of a sequence of values, in order. -/
def mpEncodeList : List MPVal → List Nat
  | [] => []
  | v :: vs => mpEncode v ++ mpEncodeList vs

end

mutual

/-- Height of a value (nesting depth); used as a fuel bound for the decoder. -/
def mpHeight : MPVal → Nat
  | .nil => 1
  | .bool _ => 1
  | .uint _ => 1
  | .str _ => 1
  | .arr vs => mpHeightList vs + 1

/-- Maximum height of the values of a list. -/
def mpHeightList : List MPVal → Nat
  | [] => 0
  | v :: vs => max (mpHeight v) (mpHeightList vs)

end

/-- Encodability: the length/width limits of the MessagePack format. -/
inductive MPVal.wf : MPVal → Prop where
  | nil : MPVal.wf .nil
  | bool (b : Bool) : MPVal.wf (.bool b)
  | uint {n : Nat} : n < 18446744073709551616 → MPVal.wf (.uint n)
  | str {s : List Nat} : s.length < 4294967296 → MPVal.wf (.str s)
  | arr {vs : List MPVal} : vs.length < 4294967296 → (∀ v ∈ vs, MPVal.wf v) →
      MPVal.wf (.arr vs)

/-- Read exactly `k` bytes from the front of a byte list. -/
def readN : Nat → List Nat → Option (List Nat × List Nat)
  | 0, bs => some ([], bs)
  | _ + 1, [] => none
  | k + 1, b :: bs => (readN k bs).map (fun p => (b :: p.1, p.2))

/-- Read a `k`-byte big-endian number from the front of a byte list. -/
def readBE (k : Nat) (bs : List Nat) : Option (Nat × List Nat) :=
  (readN k bs).map (fun p => (beVal p.1, p.2))

mutual

/-- MessagePack decoder for one value, with a fuel bound on nesting depth.
Byte patterns not produced for the modelled value set (maps, negative ints,
floats, bin/ext) decode to `none`. -/
def mpDecodeV : Nat → List Nat → Option (MPVal × List Nat)
  | 0, _ => none
  | _ + 1, [] => none
  | fuel + 1, b :: bs =>
      if b < 0x80 then some (.uint b, bs)
      else if b < 0x90 then none
      else if b < 0xa0 then
        (mpDecodeArr fuel (b - 0x90) bs).map (fun p => (.arr p.1, p.2))
      else if b < 0xc0 then
        (readN (b - 0xa0) bs).map (fun p => (.str p.1, p.2))
      else if b = 0xc0 then some (.nil, bs)
      else if b = 0xc2 then some (.bool false, bs)
      else if b = 0xc3 then some (.bool true, bs)
      else if b = 0xcc then
        match bs with
        | c :: r => some (.uint c, r)
        | [] => none
      else if b = 0xcd then (readBE 2 bs).map (fun p => (.uint p.1, p.2))
      else if b = 0xce then (readBE 4 bs).map (fun p => (.uint p.1, p.2))
      else if b = 0xcf then (readBE 8 bs).map (fun p => (.uint p.1, p.2))
      else if b = 0xd9 then
        match bs with
        | c :: r => (readN c r).map (fun p => (.str p.1, p.2))
        | [] => none
      else if b = 0xda then
        match readBE 2 bs with
        | some (n, r) => (readN n r).map (fun p => (.str p.1, p.2))
        | none => none
      else if b = 0xdb then
        match readBE 4 bs with
        | some (n, r) => (readN n r).map (fun p => (.str p.1, p.2))
        | none => none
      else if b = 0xdc then
        match readBE 2 bs with
        | some (n, r) => (mpDecodeArr fuel n r).map (fun p => (.arr p.1, p.2))
        | none => none
      else if b = 0xdd then
        match readBE 4 bs with
        | some (n, r) => (mpDecodeArr fuel n r).map (fun p => (.arr p.1, p.2))
        | none => none
      else none
termination_by fuel _ => (fuel, 0)

/-- MessagePack decoder for `n` consecutive values. -/
def mpDecodeArr : Nat → Nat → List Nat → Option (List MPVal × List Nat)
  | _, 0, bs => some ([], bs)
  | fuel, n + 1, bs =>
      match mpDecodeV fuel bs with
      | some (v, r) =>
          match mpDecodeArr fuel n r with
          | some (vs, r2) => some (v :: vs, r2)
          | none => none
      | none => none
termination_by fuel n _ => (fuel, n + 1)

end

/-! ## Socket codec (src/socket.rs) -/

namespace Socket

/-- Outcome of `Socket::decode_message`.  `ok` is the `Ok((type, args))`
return, `err` is an `Err` return (the msgpack decode failure propagated by
`?`), and `panicked` marks the places where the Rust code aborts instead of
returning: the `msg.len() - 2` slice bound underflows for inputs shorter than
2 bytes, and `as_array_mut().unwrap()`, `first().unwrap()`,
`as_str().unwrap()` abort on a non-array value, an empty array, or a
non-string head. -/
inductive DecodeOutcome : Type where
  | ok (ty : List Nat) (args : List MPVal) : DecodeOutcome
  | err : DecodeOutcome
  | panicked : DecodeOutcome

/-- Model of `Socket::encode_message` (src/socket.rs lines 126-140).  The
`u16` counter state is threaded explicitly; `(self.num + self.prime) & 0xFF`
is `(num + prime) % 256` (the release-mode `u16` wrap-around `% 2^16` does not
change the low 8 bits).  Returns the new counter and the wire bytes. -/
def encode_message (prime num : Nat) (msg : MPVal) : Nat × List Nat :=
  let num2 := (num + prime) % 256
  (num2, mpEncode msg ++ [num2 / 16 % 16, num2 % 16])

/-- Model of `Socket::decode_message` (src/socket.rs lines 142-154): drop the
last two padding bytes, msgpack-decode the rest, and take the head string and
the tail of the resulting array. -/
def decode_message (msg : List Nat) : DecodeOutcome :=
  if msg.length < 2 then .panicked
  else
    let body := msg.take (msg.length - 2)
    match mpDecodeV body.length body with
    | none => .err
    | some (v, _) =>
        match v with
        | .arr (.str s :: tl) => .ok s tl
        | .arr _ => .panicked
        | _ => .panicked

end Socket

/-! ## Geometry primitives (src/utils.rs) -/

/-- Model of `Vec3` (src/utils.rs); `f32` coordinates idealised over `ℚ`. -/
structure Vec3Q : Type where
  x : ℚ
  y : ℚ
  z : ℚ
deriving DecidableEq

/-- Model of `AABB` (src/utils.rs). -/
structure AABBQ : Type where
  min_x : ℚ
  min_y : ℚ
  min_z : ℚ
  max_x : ℚ
  max_y : ℚ
  max_z : ℚ
deriving DecidableEq

/-- Model of `Vec3::max_diff_xz` (src/utils.rs lines 90-92). -/
def Vec3Q.max_diff_xz (v other : Vec3Q) (max_diff : ℚ) : Bool :=
  |v.x - other.x| ≤ max_diff && |v.z - other.z| ≤ max_diff

/-! ## Map constants and grids (src/map.rs) -/

namespace Map

/-- A grid cell index, as in the source a triple of `usize`. -/
abbrev Cell : Type := Nat × Nat × Nat

/-- Model of `CELL_SIZE` (src/map.rs line 20): the `f32` literal `2.4`,
idealised as the exact rational 12/5. -/
def CELL_SIZE : ℚ := 2.4

/-- Model of `PLAYER_HEIGHT` (src/map.rs line 22): `(15.0 / CELL_SIZE) as
usize`, a compile-time constant whose value is ⌊15 / 2.4⌋ = 6.  The constant
is given by its numeric value so that the grid functions below are kernel
computable (`ℚ` arithmetic is irreducible); the equality with the source
formula `(⌊(15 : ℚ) / CELL_SIZE⌋).toNat` is proved in the grid-constant
theorem below. -/
def PLAYER_HEIGHT : Nat := 6

/-- Model of `position_to_cell` (src/utils.rs lines 99-105); `as usize` on a
negative float saturates to 0, hence `Int.toNat`. -/
def position_to_cell (b : AABBQ) (p : Vec3Q) : Cell :=
  ((⌊(p.x - b.min_x) / CELL_SIZE⌋).toNat,
   (⌊(p.y - b.min_y) / CELL_SIZE⌋).toNat,
   (⌊(p.z - b.min_z) / CELL_SIZE⌋).toNat)

/-- Shape of the occupancy/walkable grids, as computed in
`Map::generate_grid` (src/map.rs lines 268-272). -/
def grid_shape (b : AABBQ) : Cell :=
  ((⌈(b.max_x - b.min_x) / CELL_SIZE⌉).toNat,
   (⌈(b.max_y - b.min_y) / CELL_SIZE⌉).toNat,
   (⌈(b.max_z - b.min_z) / CELL_SIZE⌉).toNat)

/-- A 3D `u8` grid (`ndarray::Array3<u8>` in the source), as a shape plus a
cell-valued function.  `get` returns 0 outside the shape; the source instead
aborts on an out-of-bounds `ndarray` index, so theorems only rely on `get` at
indices that are in bounds in the source. -/
structure Grid3 : Type where
  nx : Nat
  ny : Nat
  nz : Nat
  val : Cell → Nat

/-- Grid lookup (in-bounds lookups agree with the source). -/
def Grid3.get (g : Grid3) (c : Cell) : Nat :=
  if c.1 < g.nx ∧ c.2.1 < g.ny ∧ c.2.2 < g.nz then g.val c else 0

/-- Shape triple of a grid, as `grid.shape()` in the source. -/
def Grid3.size (g : Grid3) : Cell := (g.nx, g.ny, g.nz)

/-- Model of `Map::neighbours` (src/map.rs lines 391-446): the 14-cell
neighbourhood (top 5, middle 4, bottom 5), plus the 12 edge cells when
`edges` is set, filtered to grid bounds.  The source works in `isize` and
filters on `0 ≤ · < size`. -/
def neighbours (cell grid_size : Cell) (edges : Bool) : List Cell :=
  let x : Int := cell.1
  let y : Int := cell.2.1
  let z : Int := cell.2.2
  let base : List (Int × Int × Int) :=
    [(x, y + 1, z), (x - 1, y + 1, z), (x + 1, y + 1, z),
     (x, y + 1, z - 1), (x, y + 1, z + 1),
     (x - 1, y, z), (x + 1, y, z), (x, y, z - 1), (x, y, z + 1),
     (x, y - 1, z), (x - 1, y - 1, z), (x + 1, y - 1, z),
     (x, y - 1, z - 1), (x, y - 1, z + 1)]
  let extra : List (Int × Int × Int) :=
    if edges then
      [(x - 1, y + 1, z - 1), (x - 1, y + 1, z + 1),
       (x + 1, y + 1, z - 1), (x + 1, y + 1, z + 1),
       (x - 1, y, z - 1), (x - 1, y, z + 1),
       (x + 1, y, z - 1), (x + 1, y, z + 1),
       (x - 1, y - 1, z - 1), (x - 1, y - 1, z + 1),
       (x + 1, y - 1, z - 1), (x + 1, y - 1, z + 1)]
    else []
  (base ++ extra).filterMap (fun c =>
    if 0 ≤ c.1 ∧ c.1 < (grid_size.1 : Int) ∧ 0 ≤ c.2.1 ∧
        c.2.1 < (grid_size.2.1 : Int) ∧ 0 ≤ c.2.2 ∧ c.2.2 < (grid_size.2.2 : Int)
    then some (c.1.toNat, c.2.1.toNat, c.2.2.toNat) else none)

/-- Model of `Map::horizontal_neighbours` (src/map.rs lines 448-482): the 4
axis-aligned horizontal neighbours, plus the 4 diagonal ones when `edges` is
set; only x and z are bounds-filtered, y is passed through unchanged. -/
def horizontal_neighbours (cell grid_size : Cell) (edges : Bool) : List Cell :=
  let x : Int := cell.1
  let y : Nat := cell.2.1
  let z : Int := cell.2.2
  let base : List (Int × Nat × Int) :=
    [(x - 1, y, z), (x + 1, y, z), (x, y, z - 1), (x, y, z + 1)]
  let extra : List (Int × Nat × Int) :=
    if edges then
      [(x - 1, y, z - 1), (x - 1, y, z + 1), (x + 1, y, z - 1), (x + 1, y, z + 1)]
    else []
  (base ++ extra).filterMap (fun c =>
    if 0 ≤ c.1 ∧ c.1 < (grid_size.1 : Int) ∧ 0 ≤ c.2.2 ∧ c.2.2 < (grid_size.2.2 : Int)
    then some (c.1.toNat, c.2.1, c.2.2.toNat) else none)

/-- Model of `Map::is_cell_walkable` (src/map.rs lines 484-547), on the
occupancy grid (0 air, 1 solid, 2-5 ramp, 6 ladder).  The control flow
mirrors the source: bounds check, player column, floor, then for air cells
the wrong-side-ramp table and the horizontal-neighbour checks, and for
ladder cells the both-sides-ladder check. -/
def is_cell_walkable (cell : Cell) (grid : Grid3) : Bool :=
  let x := cell.1
  let y := cell.2.1
  let z := cell.2.2
  let nx := grid.nx
  let ny := grid.ny
  let nz := grid.nz
  if x = 0 ∨ x + 1 ≥ nx ∨ y < 2 ∨ y + PLAYER_HEIGHT > ny ∨ z = 0 ∨ z + 1 ≥ nz then
    false
  else if (List.range (PLAYER_HEIGHT - 1)).any (fun i => grid.get (x, y + i, z) == 1) then
    false
  else if grid.get (x, y - 1, z) == 0 then
    false
  else if grid.get (x, y, z) == 0 then
    if (List.range 2).any (fun i =>
        grid.get (x - 1, y - i, z) == 3 || grid.get (x - 1, y - i, z) == 5 ||
        grid.get (x + 1, y - i, z) == 3 || grid.get (x + 1, y - i, z) == 5 ||
        grid.get (x, y - i, z - 1) == 2 || grid.get (x, y - i, z - 1) == 4 ||
        grid.get (x, y - i, z + 1) == 2 || grid.get (x, y - i, z + 1) == 4) then
      false
    else if (horizontal_neighbours (x, y, z) (nx, ny, nz) false).any (fun n =>
        (grid.get (n.1, n.2.1 - 2, n.2.2) == 0 && grid.get (n.1, n.2.1 - 1, n.2.2) == 0 &&
          grid.get n == 0) ||
        grid.get (n.1, n.2.1 + 1, n.2.2) == 1) then
      false
    else
      true
  else if grid.get (x, y, z) == 6 &&
      (grid.get (x - 1, y, z) != 6 || grid.get (x + 1, y, z) != 6) &&
      (grid.get (x, y, z - 1) != 6 || grid.get (x, y, z + 1) != 6) then
    false
  else
    true

/-- One push of the BFS of `Map::generate_walkable_grid` (src/map.rs lines
359-385): for an air cell the 4 horizontal neighbours each contribute at most
one of the cell itself, the stepped-up cell, or the stepped-down cell; for
ramp/ladder cells all 26 Moore neighbours are pushed when walkable. -/
def bfs_pushes (grid : Grid3) (cell : Cell) : List Cell :=
  if grid.get cell == 0 then
    ((horizontal_neighbours cell grid.size false).map (fun n =>
      if is_cell_walkable n grid then [n]
      else if is_cell_walkable (n.1, n.2.1 + 1, n.2.2) grid then [(n.1, n.2.1 + 1, n.2.2)]
      else if n.2.1 > 0 ∧ is_cell_walkable (n.1, n.2.1 - 1, n.2.2) grid then
        [(n.1, n.2.1 - 1, n.2.2)]
      else [])).flatten
  else
    (neighbours cell grid.size true).filter (fun n => is_cell_walkable n grid)

/-- The BFS loop of `Map::generate_walkable_grid` (src/map.rs lines 347-386),
with an explicit fuel parameter (the source loop terminates; the fuel chosen
in `generate_walkable_grid` is not exhausted on the inputs the theorems
evaluate).  Pops a cell, errors when it is out of bounds, skips it when
already marked, and otherwise marks it (2 for ladder cells, else 1) and
pushes its candidate neighbours. -/
def bfs_loop (grid : Grid3) : Nat → List Cell → (Cell → Nat) → Except String (Cell → Nat)
  | _, [], w => .ok w
  | 0, _ :: _, _ => .error "fuel exhausted"
  | fuel + 1, cell :: queue, w =>
      if cell.1 ≥ grid.nx ∨ cell.2.1 ≥ grid.ny ∨ cell.2.2 ≥ grid.nz then
        .error "Cell index out of bounds"
      else if w cell ≠ 0 then
        bfs_loop grid fuel queue w
      else
        bfs_loop grid fuel (queue ++ bfs_pushes grid cell)
          (fun c => if c = cell then (if grid.get cell == 6 then 2 else 1) else w c)

/-- Model of `Map::generate_walkable_grid` (src/map.rs lines 321-389): seed
the queue with every spawn's cell, bumping y by one when the occupancy there
is non-empty, then run the BFS. -/
def generate_walkable_grid (grid : Grid3) (map_bounds : AABBQ) (spawns : List Vec3Q) :
    Except String (Cell → Nat) :=
  let seeds := spawns.map (fun spawn =>
    let cell := position_to_cell map_bounds spawn
    if grid.get cell ≠ 0 then (cell.1, cell.2.1 + 1, cell.2.2) else cell)
  bfs_loop grid (spawns.length + 27 * (grid.nx * grid.ny * grid.nz) + 1) seeds (fun _ => 0)

/-- The successor function of `Map::find_path` (src/map.rs lines 598-620),
over the walkable grid (0 not walkable, 1 walkable, 2 ladder), with the cost
assignment of the source. -/
def successors (w : Grid3) (cell : Cell) : List (Cell × Nat) :=
  (neighbours cell w.size false).filterMap (fun c =>
    if w.get c == 1 then
      if (horizontal_neighbours c w.size true).any (fun n =>
          w.get n == 0 && w.get (n.1, n.2.1 + 1, n.2.2) == 0 &&
            w.get (n.1, n.2.1 - 1, n.2.2) == 0) then
        some (c, 3)
      else
        some (c, if cell.2.1 = c.2.1 then 1 else 2)
    else if w.get c == 2 then some (c, 3)
    else none)

/-- Kernel-computable integer square root: the number of positive `j` with
`j * j ≤ n`, which equals `Nat.sqrt n` (proved below). -/
def isqrt (n : Nat) : Nat :=
  (List.range (n + 1)).countP (fun k => decide ((k + 1) * (k + 1) ≤ n))

/-- The heuristic of `Map::find_path` (src/map.rs lines 623-629): floor of
the Euclidean distance to the end cell (`f32::sqrt` of the exact integer sum
of squares, floored; idealised as the integer square root). -/
def heuristic (end_cell cell : Cell) : Nat :=
  isqrt ((((cell.1 : Int) - end_cell.1) * ((cell.1 : Int) - end_cell.1) +
    ((cell.2.1 : Int) - end_cell.2.1) * ((cell.2.1 : Int) - end_cell.2.1) +
    ((cell.2.2 : Int) - end_cell.2.2) * ((cell.2.2 : Int) - end_cell.2.2)).toNat)

/-- An open-list entry of the A* search: a cell, the accumulated cost, and
the path to the cell in reverse (head is the cell itself). -/
structure SEntry : Type where
  cell : Cell
  cost : Nat
  path : List Cell
deriving DecidableEq

/-- Select the first entry minimising `f` from `e :: es`, returning it
together with the remaining entries. -/
def pickMin (f : SEntry → Nat) : SEntry → List SEntry → SEntry × List SEntry
  | e, [] => (e, [])
  | e, x :: xs =>
      if f e ≤ f x then
        let p := pickMin f e xs
        (p.1, x :: p.2)
      else
        let p := pickMin f x xs
        (p.1, e :: p.2)

/-- Modelled from the spec: the main loop of `pathfinding::prelude::astar`
(an external crate).  Best-first search over the open list ordered by
cost + heuristic with a closed set; returns the reversed path and its cost
when the goal is popped, `none` when the open list empties.  The fuel is
chosen by `astar` below so that it is never exhausted (each iteration either
consumes an entry or permanently visits one of the finitely many cells). -/
def astar_loop (succ : Cell → List (Cell × Nat)) (goal : Cell → Bool) (h : Cell → Nat) :
    Nat → List SEntry → List Cell → Option (List Cell × Nat)
  | 0, _, _ => none
  | _ + 1, [], _ => none
  | fuel + 1, e :: es, visited =>
      let p := pickMin (fun s => s.cost + h s.cell) e es
      if p.1.cell ∈ visited then
        astar_loop succ goal h fuel p.2 visited
      else if goal p.1.cell then
        some (p.1.path.reverse, p.1.cost)
      else
        astar_loop succ goal h fuel
          (p.2 ++ (succ p.1.cell).map (fun q => ⟨q.1, p.1.cost + q.2, q.1 :: p.1.path⟩))
          (p.1.cell :: visited)

/-- List of all cells of a grid (the finite search universe). -/
def allCells (g : Grid3) : List Cell :=
  (List.range g.nx).flatMap (fun x =>
    (List.range g.ny).flatMap (fun y =>
      (List.range g.nz).map (fun z => (x, y, z))))

/-- Modelled from the spec: `pathfinding::prelude::astar` as invoked by
`Map::find_path` (src/map.rs line 633).  `uni` is the finite universe the
successor function stays in; the fuel bounds the number of loop iterations
(a successor list has at most 14 entries, so 15 per visited cell suffice). -/
def astar (succ : Cell → List (Cell × Nat)) (goal : Cell → Bool) (h : Cell → Nat)
    (start : Cell) (uni : List Cell) : Option (List Cell × Nat) :=
  astar_loop succ goal h (15 * uni.length + 2) [⟨start, 0, [start]⟩] []

/-- The corridor test of `Map::simplify_path` (src/map.rs lines 656-673):
true iff some (x, z) column of the corridor rectangle between `from_cell`
and `cell` has no filled cell in the y range (the source then commits
`last_cell`).  Rust ranges `a..b` are `List.range' a (b - a)`. -/
def corridor_blocked (w : Grid3) (from_cell cell : Cell) : Bool :=
  let xlo := min cell.1 from_cell.1 - 1
  let xhi := max cell.1 from_cell.1 + 2
  let zlo := min cell.2.2 from_cell.2.2 - 1
  let zhi := max cell.2.2 from_cell.2.2 + 2
  let ylo := min cell.2.1 from_cell.2.1
  let yhi := max cell.2.1 from_cell.2.1 + 1
  (List.range' xlo (xhi - xlo)).any (fun x =>
    (List.range' zlo (zhi - zlo)).any (fun z =>
      ! (List.range' ylo (yhi - ylo)).any (fun y => decide (w.get (x, y, z) > 0))))

/-- The loop of `Map::simplify_path` (src/map.rs lines 654-677), carrying
`from_cell` and `last_cell`; emits the committed cells and finally
`last_cell`. -/
def simplify_loop (w : Grid3) : Cell → Cell → List Cell → List Cell
  | _, last_cell, [] => [last_cell]
  | from_cell, last_cell, cell :: rest =>
      if (cell.1 ≠ last_cell.1 ∨ cell.2.2 ≠ last_cell.2.2) ∧ corridor_blocked w from_cell cell
      then last_cell :: simplify_loop w last_cell cell rest
      else simplify_loop w from_cell cell rest

/-- Model of `Map::simplify_path` (src/map.rs lines 642-681). -/
def simplify_path (w : Grid3) (path : List Cell) : List Cell :=
  match path with
  | [] => []
  | [a] => [a]
  | [a, b] => [a, b]
  | a :: b :: rest => a :: simplify_loop w a b rest

/-- Model of `Map::find_path` (src/map.rs lines 586-640): run A* with the
successor, heuristic and goal functions of the source, then simplify the
returned path. -/
def find_path (w : Grid3) (start_cell end_cell : Cell) : Option (List Cell) :=
  match astar (successors w) (fun c => c == end_cell) (heuristic end_cell) start_cell
      (allCells w) with
  | some (path, _) => some (simplify_path w path)
  | none => none

end Map

/-! ## Message building (src/messages.rs) -/

namespace Messages

/-- Rounding of Rust `f32::round`: half away from zero (Mathlib `round`
rounds half up, which agrees on non-negative arguments). -/
def rustRound (q : ℚ) : Int := if q < 0 then -round (-q) else round q

/-- The `dt` computation of `MessageBuilder::tick` (src/messages.rs line 85):
`((tick_interval.as_micros() as f32 / 10.0).round() as i32).min(3333)`. -/
def dt_value (tick_interval_micros : Nat) : Int :=
  min (rustRound ((tick_interval_micros : ℚ) / 10)) 3333

/-- The fields of a regular tick message `["q", 0, num_tick, dt, 2, rotation,
state]` built by `MessageBuilder::tick` (src/messages.rs lines 67-95) that
the claims are about: `num_tick`, the decimal string `dt`, and the rotation
entry `[0, round(-1000 * θ)]` when present. -/
structure TickMsg : Type where
  num_tick : Nat
  dt : String
  rotation : Option Int
deriving DecidableEq

/-- Model of `MessageBuilder::tick` restricted to the claim-relevant fields. -/
def tick (num_tick : Nat) (tick_interval_micros : Nat) (rotation : Option ℚ) : TickMsg :=
  { num_tick := num_tick,
    dt := toString (dt_value tick_interval_micros),
    rotation := rotation.map (fun r => rustRound (r * -1000)) }

end Messages

/-! ## Player engine (src/player.rs) -/

namespace Player

/-- Model of `MOVEMENT_SPEED` (src/player.rs line 85). -/
def MOVEMENT_SPEED : ℚ := 0.0000459

/-- The exact value of the 32-bit float `std::f32::consts::PI`, namely
13176795 / 2^22 (doubling and halving it in `f32` are exact). -/
def PI32 : ℚ := 13176795 / 4194304

/-- Model of `Player::rotation` (src/player.rs lines 229-236): store the
argument, then subtract 2π once if above 2π, else add 2π once if negative. -/
def rotation (r : ℚ) : ℚ :=
  if r > 2 * PI32 then r - 2 * PI32
  else if r < 0 then r + 2 * PI32
  else r

/-- Model of `Player::rotate` (src/player.rs lines 238-240). -/
def rotate (cur δ : ℚ) : ℚ := rotation (cur + δ)

/-- Model of `Player::look_at` (src/player.rs lines 242-246); `f32::atan2` is
kept abstract as a parameter. -/
def look_at (atan2F : ℚ → ℚ → ℚ) (position target : Vec3Q) : ℚ :=
  rotation (atan2F (target.z - position.z) (target.x - position.x) + PI32 / 2)

/-- Model of the `State` snapshot struct (src/player.rs lines 20-26); the
`u32` tick counter is idealised as `Nat`. -/
structure PState : Type where
  tick : Nat
  position : Vec3Q
  rotation : ℚ
  walking : Bool
deriving DecidableEq

/-- The walking-delta re-application loop of the `"l"` branch of
`Player::process_message` (src/player.rs lines 395-405): starting from the
live position, each retained snapshot with `walking` adds
`dist * sin(rotation)` to x and `dist * (-cos(rotation))` to z using its own
rotation, and every snapshot's recorded position is overwritten with the
accumulated live position.  Returns the final live position and the updated
buffer.  `sin`/`cos` are abstract parameters. -/
def reapply (sinF cosF : ℚ → ℚ) (dist : ℚ) : Vec3Q → List PState → Vec3Q × List PState
  | pos, [] => (pos, [])
  | pos, st :: rest =>
      let pos2 :=
        if st.walking then
          { pos with x := pos.x + dist * sinF st.rotation,
                     z := pos.z + dist * -(cosF st.rotation) }
        else pos
      let r := reapply sinF cosF dist pos2 rest
      (r.1, { st with position := pos2 } :: r.2)

/-- Model of the alive `"l"` branch of `Player::process_message`
(src/player.rs lines 389-407): retain snapshots with `tick >= ts`; when the
head snapshot exists and the server position differs from it by more than
0.5 in x or z, snap the live position to the server position and re-apply
the retained walking deltas; otherwise keep the client prediction.  Returns
the new live position and state buffer. -/
def process_l_alive (sinF cosF : ℚ → ℚ) (tick_interval_micros : ℚ)
    (position : Vec3Q) (state_buffer : List PState) (ts : Nat) (server_pos : Vec3Q) :
    Vec3Q × List PState :=
  let buf := state_buffer.filter (fun s => ts ≤ s.tick)
  match buf with
  | [] => (position, buf)
  | past_state :: _ =>
      if Vec3Q.max_diff_xz server_pos past_state.position (1 / 2) then
        (position, buf)
      else
        reapply sinF cosF (tick_interval_micros * MOVEMENT_SPEED) server_pos buf

/-- The player fields touched by `Player::tick` (src/player.rs lines
287-311). -/
structure PlayerSt : Type where
  tick : Nat
  in_game : Bool
  walking : Bool
  position : Vec3Q
  rotation : ℚ
  state_buffer : List PState
deriving DecidableEq

/-- Model of the in-game part of `Player::tick` (src/player.rs lines
287-311): send a tick message carrying the current counter, increment the
counter, advance the position by the walking delta when walking, and append
a snapshot recording the (incremented) counter.  Returns the emitted message
(if any) and the new state. -/
def tick_step (sinF cosF : ℚ → ℚ) (tick_interval_micros : Nat) (p : PlayerSt) :
    Option Messages.TickMsg × PlayerSt :=
  if p.in_game then
    let msg := Messages.tick p.tick tick_interval_micros (some p.rotation)
    let tick2 := p.tick + 1
    let dist := (tick_interval_micros : ℚ) * MOVEMENT_SPEED
    let pos2 :=
      if p.walking then
        { p.position with x := p.position.x + dist * sinF p.rotation,
                          z := p.position.z + dist * -(cosF p.rotation) }
      else p.position
    (some msg,
     { p with tick := tick2, position := pos2,
              state_buffer := p.state_buffer ++ [⟨tick2, pos2, p.rotation, p.walking⟩] })
  else (none, p)

end Player

/-! ## Reachability under the pathfinder successor relation -/

namespace Map

/-- The step relation induced by a successor function: `b` is an allowed
successor of `a` when it appears in the successor list (with some cost). -/
def StepOf (succ : Cell → List (Cell × Nat)) (a b : Cell) : Prop :=
  b ∈ (succ a).map Prod.fst

/-- The successor-step relation of `find_path`. -/
def Step (w : Grid3) : Cell → Cell → Prop := StepOf (successors w)

/-- Boolean form of `Step`, for evaluation on concrete grids. -/
def stepB (w : Grid3) (a b : Cell) : Bool := (successors w a).any (fun q => q.1 == b)

/-- A chain for a step relation: `Chain step a l c` says `l` is a nonempty
cell sequence from `a` to `c` whose successive pairs satisfy `step`. -/
inductive Chain (step : Cell → Cell → Prop) : Cell → List Cell → Cell → Prop where
  | single (a : Cell) : Chain step a [a] a
  | cons {a b c : Cell} {l : List Cell} : step a b → Chain step b l c →
      Chain step a (a :: l) c

/-- Reachability (same connected component, directed) for a step relation. -/
inductive Reach (step : Cell → Cell → Prop) (s : Cell) : Cell → Prop where
  | refl : Reach step s s
  | tail {b c : Cell} : Reach step s b → step b c → Reach step s c

/-- Boolean chain checker over a boolean step relation. -/
def chainCheck (step : Cell → Cell → Bool) : List Cell → Bool
  | [] => false
  | [_] => true
  | a :: b :: rest => step a b && chainCheck step (b :: rest)

/-- Well-formedness of a walkable grid as produced by the preprocessor for
non-seed cells: every marked cell keeps the margins enforced by
`is_cell_walkable`, so that all grid lookups made by `find_path` and
`simplify_path` are in bounds in the source (no `ndarray` abort, no `usize`
underflow). -/
def GridOK (w : Grid3) : Prop :=
  ∀ c ∈ allCells w, w.get c ≠ 0 →
    1 ≤ c.1 ∧ c.1 + 2 ≤ w.nx ∧ 2 ≤ c.2.1 ∧ c.2.1 + PLAYER_HEIGHT ≤ w.ny ∧
      1 ≤ c.2.2 ∧ c.2.2 + 2 ≤ w.nz

end Map

/-! ## Concrete example grids used by the counterexamples and witnesses -/

/-- A walkable 6 x 6 plate at height 2 inside an 8 x 8 x 8 walkable grid:
cells (x, 2, z) with 1 ≤ x, z ≤ 6 are walkable ground. -/
def plateGrid : Map.Grid3 where
  nx := 8
  ny := 8
  nz := 8
  val := fun c => if c.2.1 = 2 ∧ 1 ≤ c.1 ∧ c.1 ≤ 6 ∧ 1 ≤ c.2.2 ∧ c.2.2 ≤ 6 then 1 else 0

/-- An occupancy grid with a solid floor at y = 1 except for a hole in the
column (2, 2): the cell (1, 2, 1) stands on solid ground, all 4 axis-aligned
neighbours pass the ledge checks, but the diagonal Moore neighbour (2, 2, 2)
sits above an all-air column. -/
def ledgeGrid : Map.Grid3 where
  nx := 4
  ny := 8
  nz := 4
  val := fun c => if c.2.1 = 1 ∧ ¬(c.1 = 2 ∧ c.2.2 = 2) then 1 else 0

/-- An all-air 3 x 3 x 3 occupancy grid. -/
def airGrid : Map.Grid3 where
  nx := 3
  ny := 3
  nz := 3
  val := fun _ => 0

/-- Bounds spanning exactly 3 x 3 x 3 cells of size 2.4 from the origin. -/
def airBounds : AABBQ where
  min_x := 0
  min_y := 0
  min_z := 0
  max_x := 36 / 5
  max_y := 36 / 5
  max_z := 36 / 5

/-- A spawn position whose cell is the centre cell (1, 1, 1) of `airGrid`. -/
def airSpawn : Vec3Q where
  x := 3
  y := 3
  z := 3

/-- The walkable grid the flood fill produces on `airGrid`: only the seed
cell is marked. -/
def airWalk : Map.Cell → Nat := fun c => if c = (1, 1, 1) then 1 else 0

instance (w : Map.Grid3) : Decidable (Map.GridOK w) := by
  unfold Map.GridOK
  infer_instance

/-!
# Theorems

First general helper lemmas, then one theorem per claim (with its witness or
counterexample where required).
-/

/-! ## C6 — grid constants -/

/-- C6 counterexample: the claim states that the cell size used for all
cell/world transforms equals 2.5 world units, but `CELL_SIZE` is 2.4. -/
theorem c6_counterexample : Map.CELL_SIZE ≠ 5 / 2 := by
  norm_num [Map.CELL_SIZE]

/-- C6 (amended): the cell size is 2.4 world units (not 2.5), the grid shape
is the componentwise ceiling of the bounds extent over `CELL_SIZE`, and
`PLAYER_HEIGHT` is the truncation of `15 / CELL_SIZE`, which equals 6. -/
theorem c6_grid_constants :
    Map.CELL_SIZE = 12 / 5 ∧
    Map.PLAYER_HEIGHT = (⌊(15 : ℚ) / Map.CELL_SIZE⌋).toNat ∧
    Map.PLAYER_HEIGHT = 6 ∧
    ∀ b : AABBQ, Map.grid_shape b =
      ((⌈(b.max_x - b.min_x) / Map.CELL_SIZE⌉).toNat,
       (⌈(b.max_y - b.min_y) / Map.CELL_SIZE⌉).toNat,
       (⌈(b.max_z - b.min_z) / Map.CELL_SIZE⌉).toNat) := by
  refine ⟨by norm_num [Map.CELL_SIZE], ?_, rfl, fun b => rfl⟩
  have h : (⌊(15 : ℚ) / Map.CELL_SIZE⌋) = 6 := by norm_num [Map.CELL_SIZE]
  rw [h]
  rfl

/-! ## C7 — rotation normalisation -/

/-- C7 counterexample: the claim states the stored rotation always lies in
[0, 2π), but `Player::rotation` wraps by at most one full turn: the argument
2π (the `f32` value `2.0 * PI`) is stored unchanged and is not below 2π. -/
theorem c7_counterexample :
    Player.rotation (2 * Player.PI32) = 2 * Player.PI32 ∧
    ¬ Player.rotation (2 * Player.PI32) < 2 * Player.PI32 := by
  have h1 : ¬ (2 * Player.PI32 > 2 * Player.PI32) := lt_irrefl _
  have h2 : ¬ ((2 : ℚ) * Player.PI32 < 0) := by norm_num [Player.PI32]
  have he : Player.rotation (2 * Player.PI32) = 2 * Player.PI32 := by
    unfold Player.rotation
    rw [if_neg h1, if_neg h2]
  exact ⟨he, by rw [he]; exact lt_irrefl _⟩

/-- C7 (amended): the wrap adds or subtracts 2π at most once, so the stored
rotation lies in the closed interval [0, 2π] for arguments in (-2π, 2π]
(arguments of 2π or beyond 4π, for example, can land outside [0, 2π));
`rotate(2π + δ)` from rotation 0 yields δ for δ > 0, `rotate(-δ)` from 0
yields 2π - δ for 0 < δ ≤ 2π, and `look_at(p)` stores the wrap of
`atan2(p.z - pos.z, p.x - pos.x) + π/2`. -/
theorem c7_rotation_wrap :
    (∀ r : ℚ, -(2 * Player.PI32) < r → r ≤ 2 * Player.PI32 →
        0 ≤ Player.rotation r ∧ Player.rotation r ≤ 2 * Player.PI32) ∧
    (∀ δ : ℚ, 0 < δ → Player.rotate 0 (2 * Player.PI32 + δ) = δ) ∧
    (∀ δ : ℚ, 0 < δ → δ ≤ 2 * Player.PI32 → Player.rotate 0 (-δ) = 2 * Player.PI32 - δ) ∧
    (∀ (atan2F : ℚ → ℚ → ℚ) (pos target : Vec3Q),
        Player.look_at atan2F pos target =
          Player.rotation (atan2F (target.z - pos.z) (target.x - pos.x) + Player.PI32 / 2)) := by
  have hpi : (0 : ℚ) < 2 * Player.PI32 := by norm_num [Player.PI32]
  refine ⟨?_, ?_, ?_, fun a p t => rfl⟩
  · intro r hlo hhi
    unfold Player.rotation
    split
    · constructor <;> linarith
    · split
      · constructor <;> linarith
      · constructor <;> linarith
  · intro δ hδ
    unfold Player.rotate Player.rotation
    rw [if_pos (by linarith)]
    ring
  · intro δ h0 h2
    unfold Player.rotate Player.rotation
    rw [if_neg (by linarith), if_pos (by linarith)]
    ring

/-- C7 witness: the amended bounds at the concrete argument π, and the two
rotate identities at δ = 1. -/
theorem c7_witness :
    (0 ≤ Player.rotation Player.PI32 ∧ Player.rotation Player.PI32 ≤ 2 * Player.PI32) ∧
    Player.rotate 0 (2 * Player.PI32 + 1) = 1 ∧
    Player.rotate 0 (-1) = 2 * Player.PI32 - 1 :=
  ⟨c7_rotation_wrap.1 Player.PI32 (by norm_num [Player.PI32]) (by norm_num [Player.PI32]),
   c7_rotation_wrap.2.1 1 (by norm_num),
   c7_rotation_wrap.2.2.1 1 (by norm_num) (by norm_num [Player.PI32])⟩

/-! ## C8 — tick dt formatting -/

/-- C8: the `dt` field of a regular tick message is
`min(round(tick_interval_micros / 10), 3333)` formatted as a decimal string;
at a 66 ms interval it is the string 3333 and at a 10 ms interval the string
1000. -/
theorem c8_tick_dt :
    (∀ (t m : Nat) (r : Option ℚ),
        (Messages.tick t m r).dt = toString (min (Messages.rustRound ((m : ℚ) / 10)) 3333)) ∧
    (Messages.tick 0 66000 none).dt = "3333" ∧
    (Messages.tick 0 10000 none).dt = "1000" := by
  refine ⟨fun t m r => rfl, ?_, ?_⟩
  · show toString (Messages.dt_value 66000) = "3333"
    have h : Messages.dt_value 66000 = 3333 := by
      unfold Messages.dt_value Messages.rustRound
      norm_num [round_eq]
    rw [h]
    rfl
  · show toString (Messages.dt_value 10000) = "1000"
    have h : Messages.dt_value 10000 = 1000 := by
      unfold Messages.dt_value Messages.rustRound
      norm_num [round_eq]
    rw [h]
    rfl

/-! ## C10 — snapshot tick offset -/

/-- C10: on an in-game tick, the tick message carries the current counter
value `t`, the counter is incremented, and the appended snapshot records
`t + 1` (the post-increment counter), which is not the emitted tick number;
the reconciliation retain predicate (`tick >= ts`) therefore keeps this
snapshot exactly for server ticks up to `t + 1`. -/
theorem c10_snapshot_tick_offset (sinF cosF : ℚ → ℚ) (m : Nat) (p : Player.PlayerSt)
    (h : p.in_game = true) :
    (Player.tick_step sinF cosF m p).1 = some (Messages.tick p.tick m (some p.rotation)) ∧
    (Messages.tick p.tick m (some p.rotation)).num_tick = p.tick ∧
    (Player.tick_step sinF cosF m p).2.tick = p.tick + 1 ∧
    ∃ snap : Player.PState,
      (Player.tick_step sinF cosF m p).2.state_buffer = p.state_buffer ++ [snap] ∧
      snap.tick = p.tick + 1 ∧
      snap.tick ≠ (Messages.tick p.tick m (some p.rotation)).num_tick ∧
      snap ∈ (Player.tick_step sinF cosF m p).2.state_buffer.filter
        (fun s => p.tick + 1 ≤ s.tick) := by
  unfold Player.tick_step
  rw [if_pos h]
  refine ⟨rfl, rfl, rfl, ⟨_, _, p.rotation, p.walking⟩, rfl, rfl, by simp [Messages.tick], ?_⟩
  simp

/-- C10 witness: the theorem at a concrete in-game player state. -/
theorem c10_witness :
    (Player.tick_step (fun _ => 0) (fun _ => 0) 66000
        ⟨0, true, false, ⟨0, 0, 0⟩, 0, []⟩).2.tick = 0 + 1 :=
  (c10_snapshot_tick_offset (fun _ => 0) (fun _ => 0) 66000
    ⟨0, true, false, ⟨0, 0, 0⟩, 0, []⟩ rfl).2.2.1

/-! ## C4 — reconciliation -/

/-- Helper: `reapply` keeps the tick (and rotation, walking) of every
snapshot; only positions change. -/
theorem reapply_map_tick (sinF cosF : ℚ → ℚ) (dist : ℚ) :
    ∀ (l : List Player.PState) (pos : Vec3Q),
      (Player.reapply sinF cosF dist pos l).2.map Player.PState.tick =
        l.map Player.PState.tick := by
  intro l
  induction l with
  | nil => intro pos; rfl
  | cons st rest ih =>
      intro pos
      unfold Player.reapply
      simp [ih]

/-- Helper: `reapply` over a buffer of non-walking snapshots leaves the live
position unchanged. -/
theorem reapply_not_walking (sinF cosF : ℚ → ℚ) (dist : ℚ) :
    ∀ (l : List Player.PState) (pos : Vec3Q), (∀ s ∈ l, s.walking = false) →
      (Player.reapply sinF cosF dist pos l).1 = pos := by
  intro l
  induction l with
  | nil => intro pos _; rfl
  | cons st rest ih =>
      intro pos hw
      unfold Player.reapply
      have hst : st.walking = false := hw st (List.mem_cons_self st rest)
      simp only [hst, Bool.false_eq_true, if_false]
      exact ih pos (fun s hs => hw s (List.mem_cons_of_mem st hs))

/-- C4: on an alive l-message with server tick `ts` and position `ps`, every
snapshot with tick < ts is dropped (the retained ticks are exactly those of
the filtered buffer); with `sp` the head of the remaining buffer, if
|x_sp - x_ps| ≤ 0.5 and |z_sp - z_ps| ≤ 0.5 the position and buffer are left
unchanged, otherwise the position is snapped to `ps` and the retained
walking deltas are re-applied via `reapply`; a buffer of non-walking
snapshots leaves the snapped position at `ps`; in particular with one
buffered snapshot at (5,0,0), tick 10, walking false, a server update at
tick 10 with position (5.4,0,0) leaves the position unchanged, and
(5.6,0,0) snaps the position (and the snapshot) to the server value. -/
theorem c4_reconciliation :
    (∀ (sinF cosF : ℚ → ℚ) (ti : ℚ) (pos : Vec3Q) (buf : List Player.PState)
        (ts : Nat) (ps : Vec3Q),
        (Player.process_l_alive sinF cosF ti pos buf ts ps).2.map Player.PState.tick =
          (buf.filter (fun s => ts ≤ s.tick)).map Player.PState.tick) ∧
    (∀ (sinF cosF : ℚ → ℚ) (ti : ℚ) (pos : Vec3Q) (buf : List Player.PState)
        (ts : Nat) (ps : Vec3Q) (sp : Player.PState) (l : List Player.PState),
        buf.filter (fun s => ts ≤ s.tick) = sp :: l →
        |ps.x - sp.position.x| ≤ 1 / 2 → |ps.z - sp.position.z| ≤ 1 / 2 →
        Player.process_l_alive sinF cosF ti pos buf ts ps = (pos, sp :: l)) ∧
    (∀ (sinF cosF : ℚ → ℚ) (ti : ℚ) (pos : Vec3Q) (buf : List Player.PState)
        (ts : Nat) (ps : Vec3Q) (sp : Player.PState) (l : List Player.PState),
        buf.filter (fun s => ts ≤ s.tick) = sp :: l →
        ¬ (|ps.x - sp.position.x| ≤ 1 / 2 ∧ |ps.z - sp.position.z| ≤ 1 / 2) →
        Player.process_l_alive sinF cosF ti pos buf ts ps =
          Player.reapply sinF cosF (ti * Player.MOVEMENT_SPEED) ps (sp :: l)) ∧
    (Player.process_l_alive (fun _ => 0) (fun _ => 0) 66000 ⟨5, 0, 0⟩
        [⟨10, ⟨5, 0, 0⟩, 0, false⟩] 10 ⟨27 / 5, 0, 0⟩ =
      (⟨5, 0, 0⟩, [⟨10, ⟨5, 0, 0⟩, 0, false⟩])) ∧
    (Player.process_l_alive (fun _ => 0) (fun _ => 0) 66000 ⟨5, 0, 0⟩
        [⟨10, ⟨5, 0, 0⟩, 0, false⟩] 10 ⟨28 / 5, 0, 0⟩ =
      (⟨28 / 5, 0, 0⟩, [⟨10, ⟨28 / 5, 0, 0⟩, 0, false⟩])) := by
  have hfilter : ([⟨10, ⟨5, 0, 0⟩, 0, false⟩] : List Player.PState).filter
      (fun s => 10 ≤ s.tick) = [⟨10, ⟨5, 0, 0⟩, 0, false⟩] := by
    simp
  refine ⟨?_, ?_, ?_, ?_, ?_⟩
  · intro sinF cosF ti pos buf ts ps
    unfold Player.process_l_alive
    cases hb : buf.filter (fun s => ts ≤ s.tick) with
    | nil => rfl
    | cons sp l =>
        dsimp only
        split
        · simp
        · simp [reapply_map_tick]
  · intro sinF cosF ti pos buf ts ps sp l hb hx hz
    unfold Player.process_l_alive
    rw [hb]
    dsimp only
    split
    · rfl
    · next hcond =>
        refine absurd ?_ hcond
        rw [Vec3Q.max_diff_xz]
        simp only [Bool.and_eq_true, decide_eq_true_eq]
        exact ⟨hx, hz⟩
  · intro sinF cosF ti pos buf ts ps sp l hb hnd
    unfold Player.process_l_alive
    rw [hb]
    dsimp only
    split
    · next hcond =>
        rw [Vec3Q.max_diff_xz] at hcond
        simp only [Bool.and_eq_true, decide_eq_true_eq] at hcond
        exact absurd hcond hnd
    · rfl
  · unfold Player.process_l_alive
    rw [hfilter]
    dsimp only
    split
    · rfl
    · next hcond =>
        refine absurd ?_ hcond
        rw [Vec3Q.max_diff_xz]
        simp only [Bool.and_eq_true, decide_eq_true_eq]
        norm_num [abs_le]
  · unfold Player.process_l_alive
    rw [hfilter]
    dsimp only
    split
    · next hcond =>
        rw [Vec3Q.max_diff_xz] at hcond
        simp only [Bool.and_eq_true, decide_eq_true_eq] at hcond
        norm_num [abs_le] at hcond
    · unfold Player.reapply Player.reapply
      simp

/-- C4 witness: the within-threshold branch of the theorem at the concrete
(5.4, 0, 0) instance. -/
theorem c4_witness :
    Player.process_l_alive (fun _ => 0) (fun _ => 0) 66000 ⟨5, 0, 0⟩
        [⟨10, ⟨5, 0, 0⟩, 0, false⟩] 10 ⟨27 / 5, 0, 0⟩ =
      (⟨5, 0, 0⟩, [⟨10, ⟨5, 0, 0⟩, 0, false⟩]) :=
  c4_reconciliation.2.1 (fun _ => 0) (fun _ => 0) 66000 ⟨5, 0, 0⟩
    [⟨10, ⟨5, 0, 0⟩, 0, false⟩] 10 ⟨27 / 5, 0, 0⟩ ⟨10, ⟨5, 0, 0⟩, 0, false⟩ []
    (by simp) (by norm_num [abs_le]) (by norm_num [abs_le])

/-! ## C5 — narrow-ledge and overhang rejection -/

/-- C5 counterexample: the claim states `is_cell_walkable` examines all 8
horizontal Moore neighbours and rejects on an all-air column; in `ledgeGrid`
the diagonal Moore neighbour (2, 2, 2) of the cell (1, 2, 1) has the all-air
pattern (occ at y-2, y-1 and y all 0), yet the cell is accepted — the code
only examines the 4 axis-aligned neighbours (`edges: false`). -/
theorem c5_counterexample :
    Map.is_cell_walkable (1, 2, 1) ledgeGrid = true ∧
    (2, 2, 2) ∈ Map.horizontal_neighbours (1, 2, 1) ledgeGrid.size true ∧
    ledgeGrid.get (2, 0, 2) = 0 ∧ ledgeGrid.get (2, 1, 2) = 0 ∧
    ledgeGrid.get (2, 2, 2) = 0 := by
  refine ⟨by decide, by decide, by decide, by decide, by decide⟩

/-- C5 (amended): for a cell with `occ[c] = 0` that passed the bounds,
player-column, floor and wrong-side-ramp checks, `is_cell_walkable` accepts
iff each of the 4 axis-aligned horizontal neighbours `n`
(`horizontal_neighbours` with `edges = false`, not the 8 Moore neighbours)
avoids both the all-air pattern at (n.y-2, n.y-1, n.y) and a solid cell at
n.y+1. -/
theorem c5_narrow_ledge (cell : Map.Cell) (g : Map.Grid3)
    (hb : ¬ (cell.1 = 0 ∨ cell.1 + 1 ≥ g.nx ∨ cell.2.1 < 2 ∨
        cell.2.1 + Map.PLAYER_HEIGHT > g.ny ∨ cell.2.2 = 0 ∨ cell.2.2 + 1 ≥ g.nz))
    (hcol : ∀ i < Map.PLAYER_HEIGHT - 1, g.get (cell.1, cell.2.1 + i, cell.2.2) ≠ 1)
    (hfloor : g.get (cell.1, cell.2.1 - 1, cell.2.2) ≠ 0)
    (hair : g.get (cell.1, cell.2.1, cell.2.2) = 0)
    (hramp : ∀ i < 2,
        ¬ (g.get (cell.1 - 1, cell.2.1 - i, cell.2.2) = 3 ∨
           g.get (cell.1 - 1, cell.2.1 - i, cell.2.2) = 5 ∨
           g.get (cell.1 + 1, cell.2.1 - i, cell.2.2) = 3 ∨
           g.get (cell.1 + 1, cell.2.1 - i, cell.2.2) = 5 ∨
           g.get (cell.1, cell.2.1 - i, cell.2.2 - 1) = 2 ∨
           g.get (cell.1, cell.2.1 - i, cell.2.2 - 1) = 4 ∨
           g.get (cell.1, cell.2.1 - i, cell.2.2 + 1) = 2 ∨
           g.get (cell.1, cell.2.1 - i, cell.2.2 + 1) = 4)) :
    Map.is_cell_walkable cell g = true ↔
      ∀ n ∈ Map.horizontal_neighbours cell g.size false,
        ¬ (g.get (n.1, n.2.1 - 2, n.2.2) = 0 ∧ g.get (n.1, n.2.1 - 1, n.2.2) = 0 ∧
            g.get (n.1, n.2.1, n.2.2) = 0) ∧
          g.get (n.1, n.2.1 + 1, n.2.2) ≠ 1 := by
  unfold Map.is_cell_walkable
  dsimp only
  rw [if_neg hb]
  have h2 : ((List.range (Map.PLAYER_HEIGHT - 1)).any
      (fun i => g.get (cell.1, cell.2.1 + i, cell.2.2) == 1)) = false := by
    rw [Bool.eq_false_iff]
    intro hc
    rw [List.any_eq_true] at hc
    obtain ⟨i, hi, hgi⟩ := hc
    rw [List.mem_range] at hi
    exact hcol i hi (by simpa using hgi)
  rw [h2]
  have h3 : (g.get (cell.1, cell.2.1 - 1, cell.2.2) == 0) = false := by
    simpa using hfloor
  rw [h3]
  have h4 : (g.get (cell.1, cell.2.1, cell.2.2) == 0) = true := by
    simpa using hair
  rw [h4]
  have h5 : ((List.range 2).any (fun i =>
      g.get (cell.1 - 1, cell.2.1 - i, cell.2.2) == 3 ||
      g.get (cell.1 - 1, cell.2.1 - i, cell.2.2) == 5 ||
      g.get (cell.1 + 1, cell.2.1 - i, cell.2.2) == 3 ||
      g.get (cell.1 + 1, cell.2.1 - i, cell.2.2) == 5 ||
      g.get (cell.1, cell.2.1 - i, cell.2.2 - 1) == 2 ||
      g.get (cell.1, cell.2.1 - i, cell.2.2 - 1) == 4 ||
      g.get (cell.1, cell.2.1 - i, cell.2.2 + 1) == 2 ||
      g.get (cell.1, cell.2.1 - i, cell.2.2 + 1) == 4)) = false := by
    rw [Bool.eq_false_iff]
    intro hc
    rw [List.any_eq_true] at hc
    obtain ⟨i, hi, hgi⟩ := hc
    rw [List.mem_range] at hi
    refine hramp i hi ?_
    simpa [Bool.or_eq_true, or_assoc] using hgi
  rw [h5]
  simp only [Bool.false_eq_true, if_false, if_true]
  cases hA : ((Map.horizontal_neighbours (cell.1, cell.2.1, cell.2.2) (g.nx, g.ny, g.nz)
      false).any (fun n =>
        (g.get (n.1, n.2.1 - 2, n.2.2) == 0 && g.get (n.1, n.2.1 - 1, n.2.2) == 0 &&
          g.get (n.1, n.2.1, n.2.2) == 0) ||
        g.get (n.1, n.2.1 + 1, n.2.2) == 1)) with
  | false =>
      rw [if_neg Bool.false_ne_true]
      rw [List.any_eq_false] at hA
      constructor
      · intro _ n hn
        have := hA n hn
        simp only [Bool.or_eq_true, Bool.and_eq_true, beq_iff_eq, not_or, not_and] at this
        exact ⟨fun hand => (this.1 ⟨hand.1, hand.2.1⟩) hand.2.2, this.2⟩
      · intro _
        rfl
  | true =>
      rw [if_pos rfl]
      rw [List.any_eq_true] at hA
      obtain ⟨n, hn, hbad⟩ := hA
      simp only [Bool.or_eq_true, Bool.and_eq_true, beq_iff_eq] at hbad
      constructor
      · intro hfalse
        exact absurd hfalse (by simp)
      · intro hall
        have := hall n hn
        rcases hbad with ⟨⟨ha, hb2⟩, hc⟩ | hov
        · exact absurd ⟨ha, hb2, hc⟩ this.1
        · exact absurd hov this.2

/-- C5 witness: the amended theorem at the concrete cell (1, 2, 1) of
`ledgeGrid`, where all hypotheses hold. -/
theorem c5_witness :
    Map.is_cell_walkable (1, 2, 1) ledgeGrid = true ↔
      ∀ n ∈ Map.horizontal_neighbours (1, 2, 1) ledgeGrid.size false,
        ¬ (ledgeGrid.get (n.1, n.2.1 - 2, n.2.2) = 0 ∧
            ledgeGrid.get (n.1, n.2.1 - 1, n.2.2) = 0 ∧
            ledgeGrid.get (n.1, n.2.1, n.2.2) = 0) ∧
          ledgeGrid.get (n.1, n.2.1 + 1, n.2.2) ≠ 1 :=
  c5_narrow_ledge (1, 2, 1) ledgeGrid (by decide) (by decide) (by decide) (by decide)
    (by decide)

/-! ## C9 — spawn seed cells bypass the walkability check -/

/-- Helper: an `ok` run of the BFS loop never unmarks a cell and marks every
cell of the initial queue, without ever testing `is_cell_walkable` on a
popped cell. -/
theorem bfs_loop_marks (grid : Map.Grid3) :
    ∀ (fuel : Nat) (queue : List Map.Cell) (w w2 : Map.Cell → Nat),
      Map.bfs_loop grid fuel queue w = .ok w2 →
      (∀ c, w c ≠ 0 → w2 c ≠ 0) ∧ (∀ c ∈ queue, w2 c ≠ 0) := by
  intro fuel
  induction fuel with
  | zero =>
      intro queue w w2 h
      cases queue with
      | nil =>
          simp only [Map.bfs_loop] at h
          cases h
          exact ⟨fun c hc => hc, by simp⟩
      | cons c q => simp [Map.bfs_loop] at h
  | succ fuel ih =>
      intro queue w w2 h
      cases queue with
      | nil =>
          simp only [Map.bfs_loop] at h
          cases h
          exact ⟨fun c hc => hc, by simp⟩
      | cons c q =>
          rw [Map.bfs_loop] at h
          split at h
          · cases h
          · split at h
            · next hskip =>
              have hr := ih q w w2 h
              refine ⟨hr.1, ?_⟩
              intro c0 hc0
              rcases List.mem_cons.1 hc0 with hh | ht
              · subst hh
                exact hr.1 _ hskip
              · exact hr.2 c0 ht
            · have hr := ih (q ++ Map.bfs_pushes grid c)
                (fun c0 => if c0 = c then (if grid.get c == 6 then 2 else 1) else w c0) w2 h
              have hpres : ∀ c0, w c0 ≠ 0 → w2 c0 ≠ 0 := by
                intro c0 hc0
                refine hr.1 c0 ?_
                by_cases he : c0 = c
                · subst he
                  split <;> simp
                · simpa [he] using hc0
              refine ⟨hpres, ?_⟩
              intro c0 hc0
              rcases List.mem_cons.1 hc0 with hh | ht
              · subst hh
                refine hr.1 c0 ?_
                split <;> simp
              · exact hr.2 c0 (List.mem_append_left _ ht)

/-- C9: the flood fill seeds the queue with each spawn cell (bumping y by one
when the occupancy there is non-empty) and, whenever the whole fill returns
successfully, every seed cell ends up marked walkable — no
`is_cell_walkable` test is applied to popped cells; in particular on the
all-air `airGrid` the seed cell (1, 1, 1) is marked 1 even though
`is_cell_walkable` rejects it. -/
theorem c9_spawn_seed_bypass :
    (∀ (grid : Map.Grid3) (b : AABBQ) (spawns : List Vec3Q) (w : Map.Cell → Nat),
        Map.generate_walkable_grid grid b spawns = .ok w →
        ∀ sp ∈ spawns,
          w (if grid.get (Map.position_to_cell b sp) ≠ 0 then
              ((Map.position_to_cell b sp).1, (Map.position_to_cell b sp).2.1 + 1,
                (Map.position_to_cell b sp).2.2)
            else Map.position_to_cell b sp) ≠ 0) ∧
    ((match Map.generate_walkable_grid airGrid airBounds [airSpawn] with
      | .ok w => w (1, 1, 1)
      | .error _ => 0) = 1 ∧
      Map.is_cell_walkable (1, 1, 1) airGrid = false) := by
  have hcell : Map.position_to_cell airBounds airSpawn = (1, 1, 1) := by
    unfold Map.position_to_cell
    norm_num [airBounds, airSpawn, Map.CELL_SIZE]
  constructor
  · intro grid b spawns w h sp hsp
    unfold Map.generate_walkable_grid at h
    refine (bfs_loop_marks grid _ _ _ _ h).2 _ ?_
    exact List.mem_map.2 ⟨sp, hsp, rfl⟩
  · constructor
    · have hgen : Map.generate_walkable_grid airGrid airBounds [airSpawn] =
          Map.bfs_loop airGrid 731 [(1, 1, 1)] (fun _ => 0) := by
        unfold Map.generate_walkable_grid
        rw [List.map_cons, List.map_nil, hcell]
        norm_num [airGrid, Map.Grid3.get]
      rw [hgen]
      decide
    · decide

/-- C9 witness: the general seed-marking statement applied to `airGrid` with
its single spawn, whose flood fill returns `airWalk`. -/
theorem c9_witness :
    airWalk (if airGrid.get (Map.position_to_cell airBounds airSpawn) ≠ 0 then
        ((Map.position_to_cell airBounds airSpawn).1,
          (Map.position_to_cell airBounds airSpawn).2.1 + 1,
          (Map.position_to_cell airBounds airSpawn).2.2)
      else Map.position_to_cell airBounds airSpawn) ≠ 0 := by
  have hcell : Map.position_to_cell airBounds airSpawn = (1, 1, 1) := by
    unfold Map.position_to_cell
    norm_num [airBounds, airSpawn, Map.CELL_SIZE]
  have hok : Map.generate_walkable_grid airGrid airBounds [airSpawn] = Except.ok airWalk := by
    unfold Map.generate_walkable_grid
    rw [List.map_cons, List.map_nil, hcell]
    norm_num [airGrid, Map.Grid3.get]
    rfl
  exact c9_spawn_seed_bypass.1 airGrid airBounds [airSpawn] airWalk hok airSpawn
    (List.mem_singleton.2 rfl)

/-! ## C1/C3 helper lemmas — MessagePack round trip -/

/-- Reading back exactly the bytes just laid down. -/
theorem readN_exact : ∀ (l rest : List Nat), readN l.length (l ++ rest) = some (l, rest) := by
  intro l
  induction l with
  | nil => intro rest; rfl
  | cons b t ih =>
      intro rest
      simp [readN, ih]

/-- A big-endian encoding has exactly `k` bytes. -/
theorem beBytes_length : ∀ (k n : Nat), (beBytes k n).length = k := by
  intro k
  induction k with
  | zero => intro n; rfl
  | succ k ih => intro n; simp [beBytes, ih]

/-- Folding one more low byte. -/
theorem beVal_append (xs : List Nat) (b : Nat) : beVal (xs ++ [b]) = beVal xs * 256 + b := by
  unfold beVal
  rw [List.foldl_append]
  rfl

/-- The big-endian fold inverts the big-endian encoding. -/
theorem beVal_beBytes : ∀ (k n : Nat), n < 256 ^ k → beVal (beBytes k n) = n := by
  intro k
  induction k with
  | zero =>
      intro n hn
      interval_cases n
      rfl
  | succ k ih =>
      intro n hn
      rw [beBytes, beVal_append, ih (n / 256) ?_]
      · omega
      · refine Nat.div_lt_of_lt_mul ?_
        calc n < 256 ^ (k + 1) := hn
        _ = 256 * 256 ^ k := by ring

/-- Reading a big-endian number back from its encoding. -/
theorem readBE_beBytes (k n : Nat) (rest : List Nat) (h : n < 256 ^ k) :
    readBE k (beBytes k n ++ rest) = some (n, rest) := by
  unfold readBE
  have h1 : readN k (beBytes k n ++ rest) = some (beBytes k n, rest) := by
    have h2 := readN_exact (beBytes k n) rest
    rwa [beBytes_length] at h2
  rw [h1]
  simp [beVal_beBytes k n h]

/-- Every value has positive height. -/
theorem mpHeight_pos : ∀ v : MPVal, 1 ≤ mpHeight v := by
  intro v
  cases v <;> simp [mpHeight]

/-- The height of a member is at most the height of the list. -/
theorem mpHeight_le_heightList : ∀ (vs : List MPVal) (v : MPVal), v ∈ vs →
    mpHeight v ≤ mpHeightList vs := by
  intro vs
  induction vs with
  | nil => intro v hv; cases hv
  | cons w t ih =>
      intro v hv
      rcases List.mem_cons.1 hv with hh | ht
      · subst hh; simp [mpHeightList]
      · exact le_trans (ih v ht) (by simp [mpHeightList])

mutual

/-- The nesting height is bounded by the encoding length (each level emits at
least its header byte). -/
theorem mpHeight_le_encLength : ∀ v : MPVal, mpHeight v ≤ (mpEncode v).length := by
  intro v
  cases v with
  | nil => simp [mpHeight, mpEncode]
  | bool b => cases b <;> simp [mpHeight, mpEncode]
  | uint n =>
      rw [mpHeight, mpEncode]
      split
      · simp
      · split
        · simp
        · split
          · simp
          · split <;> simp
  | str s =>
      rw [mpHeight, mpEncode]
      rw [List.length_append]
      have h1 : 1 ≤ (if s.length < 32 then [0xa0 + s.length]
          else if s.length < 256 then [0xd9, s.length]
          else if s.length < 65536 then 0xda :: beBytes 2 s.length
          else 0xdb :: beBytes 4 s.length).length := by
        split
        · simp
        · split
          · simp
          · split <;> simp
      omega
  | arr vs =>
      rw [mpHeight, mpEncode]
      rw [List.length_append]
      have h1 : 1 ≤ (if vs.length < 16 then [0x90 + vs.length]
          else if vs.length < 65536 then 0xdc :: beBytes 2 vs.length
          else 0xdd :: beBytes 4 vs.length).length := by
        split
        · simp
        · split <;> simp
      have h2 : mpHeightList vs ≤ (mpEncodeList vs).length := mpHeightList_le_encLength vs
      omega

/-- List version of `mpHeight_le_encLength`. -/
theorem mpHeightList_le_encLength : ∀ vs : List MPVal,
    mpHeightList vs ≤ (mpEncodeList vs).length := by
  intro vs
  cases vs with
  | nil => simp [mpHeightList, mpEncodeList]
  | cons v t =>
      rw [mpHeightList, mpEncodeList, List.length_append]
      have h1 := mpHeight_le_encLength v
      have h2 := mpHeightList_le_encLength t
      omega

end

/-- MessagePack round trip: with fuel at least the nesting height, decoding
an encoding returns the value and the unread rest. -/
theorem mpDecode_roundtrip : ∀ fuel : Nat,
    (∀ v : MPVal, MPVal.wf v → mpHeight v ≤ fuel → ∀ rest : List Nat,
        mpDecodeV fuel (mpEncode v ++ rest) = some (v, rest)) ∧
    (∀ vs : List MPVal, (∀ v ∈ vs, MPVal.wf v) → (∀ v ∈ vs, mpHeight v ≤ fuel) →
        ∀ rest : List Nat,
        mpDecodeArr fuel vs.length (mpEncodeList vs ++ rest) = some (vs, rest)) := by
  intro fuel
  induction fuel with
  | zero =>
      constructor
      · intro v _ hh
        exact absurd hh (by have := mpHeight_pos v; omega)
      · intro vs _ hh rest
        cases vs with
        | nil => simp [mpDecodeArr.eq_def, mpEncodeList]
        | cons v t =>
            exact absurd (hh v (by simp)) (by have := mpHeight_pos v; omega)
  | succ fuel ih =>
      have hV : ∀ v : MPVal, MPVal.wf v → mpHeight v ≤ fuel + 1 → ∀ rest : List Nat,
          mpDecodeV (fuel + 1) (mpEncode v ++ rest) = some (v, rest) := by
        intro v hwf hh rest
        cases v with
        | nil => simp [mpEncode, mpDecodeV.eq_def]
        | bool b => cases b <;> simp [mpEncode, mpDecodeV.eq_def]
        | uint n =>
            cases hwf with | uint h64 =>
            by_cases h1 : n < 128
            · simp [mpEncode, h1, mpDecodeV.eq_def]
            · by_cases h2 : n < 256
              · simp only [mpEncode, if_neg h1, if_pos h2, List.cons_append,
                  List.singleton_append]
                simp [mpDecodeV.eq_def]
              · by_cases h3 : n < 65536
                · simp only [mpEncode, if_neg h1, if_neg h2, if_pos h3, List.cons_append]
                  rw [mpDecodeV.eq_def]
                  norm_num
                  rw [readBE_beBytes 2 n rest (by norm_num; omega)]
                · by_cases h4 : n < 4294967296
                  · simp only [mpEncode, if_neg h1, if_neg h2, if_neg h3, if_pos h4,
                      List.cons_append]
                    rw [mpDecodeV.eq_def]
                    norm_num
                    rw [readBE_beBytes 4 n rest (by norm_num; omega)]
                  · simp only [mpEncode, if_neg h1, if_neg h2, if_neg h3, if_neg h4,
                      List.cons_append]
                    rw [mpDecodeV.eq_def]
                    norm_num
                    rw [readBE_beBytes 8 n rest (by norm_num; omega)]
        | str s =>
            cases hwf with | str h32 =>
            by_cases h1 : s.length < 32
            · simp only [mpEncode, if_pos h1, List.singleton_append, List.cons_append,
                List.append_assoc]
              rw [mpDecodeV.eq_def]
              simp only
              rw [if_neg (show ¬(160 + s.length < 128) by omega),
                if_neg (show ¬(160 + s.length < 144) by omega),
                if_neg (show ¬(160 + s.length < 160) by omega),
                if_pos (show 160 + s.length < 192 by omega),
                show 160 + s.length - 160 = s.length by omega,
                List.nil_append, readN_exact]
              rfl
            · by_cases h2 : s.length < 256
              · simp only [mpEncode, if_neg h1, if_pos h2, List.cons_append,
                  List.append_assoc]
                rw [mpDecodeV.eq_def]
                norm_num
                rw [readN_exact]
              · by_cases h3 : s.length < 65536
                · simp only [mpEncode, if_neg h1, if_neg h2, if_pos h3, List.cons_append,
                    List.append_assoc]
                  rw [mpDecodeV.eq_def]
                  norm_num
                  rw [readBE_beBytes 2 s.length (s ++ rest) (by norm_num; omega)]
                  simp only
                  rw [readN_exact]
                  rfl
                · simp only [mpEncode, if_neg h1, if_neg h2, if_neg h3, List.cons_append,
                    List.append_assoc]
                  rw [mpDecodeV.eq_def]
                  norm_num
                  rw [readBE_beBytes 4 s.length (s ++ rest) (by norm_num; omega)]
                  simp only
                  rw [readN_exact]
                  rfl
        | arr vs =>
            cases hwf with | arr h32 helems =>
            rw [mpHeight] at hh
            have hhl : ∀ w ∈ vs, mpHeight w ≤ fuel := by
              intro w hw
              have h1 := mpHeight_le_heightList vs w hw
              omega
            by_cases h1 : vs.length < 16
            · simp only [mpEncode, if_pos h1, List.singleton_append, List.cons_append,
                List.nil_append, List.append_assoc]
              rw [mpDecodeV.eq_def]
              simp only
              rw [if_neg (show ¬(144 + vs.length < 128) by omega),
                if_neg (show ¬(144 + vs.length < 144) by omega),
                if_pos (show 144 + vs.length < 160 by omega),
                show 144 + vs.length - 144 = vs.length by omega,
                ih.2 vs helems hhl rest]
              rfl
            · by_cases h2 : vs.length < 65536
              · simp only [mpEncode, if_neg h1, if_pos h2, List.cons_append,
                  List.append_assoc]
                rw [mpDecodeV.eq_def]
                norm_num
                rw [readBE_beBytes 2 vs.length (mpEncodeList vs ++ rest)
                  (by norm_num; omega)]
                simp only
                rw [ih.2 vs helems hhl rest]
                rfl
              · simp only [mpEncode, if_neg h1, if_neg h2, List.cons_append,
                  List.append_assoc]
                rw [mpDecodeV.eq_def]
                norm_num
                rw [readBE_beBytes 4 vs.length (mpEncodeList vs ++ rest)
                  (by norm_num; omega)]
                simp only
                rw [ih.2 vs helems hhl rest]
                rfl
      refine ⟨hV, ?_⟩
      intro vs
      induction vs with
      | nil =>
          intro _ _ rest
          simp [mpDecodeArr.eq_def, mpEncodeList]
      | cons v t iht =>
          intro hwf hh rest
          rw [List.length_cons, mpEncodeList, List.append_assoc, mpDecodeArr.eq_def]
          simp only
          rw [hV v (hwf v (by simp)) (hh v (by simp)) (mpEncodeList t ++ rest)]
          simp only
          rw [iht (fun w hw => hwf w (by simp [hw])) (fun w hw => hh w (by simp [hw])) rest]

/-- Decoding an encoded array-with-string-head value with two trailing
padding bytes: the padding is truncated and the head and tail are
recovered. -/
theorem decode_message_encoding (s : List Nat) (tl : List MPVal)
    (hwf : MPVal.wf (.arr (.str s :: tl))) (a b : Nat) :
    Socket.decode_message (mpEncode (.arr (.str s :: tl)) ++ [a, b]) = .ok s tl := by
  set v : MPVal := .arr (.str s :: tl) with hv
  unfold Socket.decode_message
  have hlen : (mpEncode v ++ [a, b]).length = (mpEncode v).length + 2 := by simp
  rw [if_neg (by rw [hlen]; omega)]
  dsimp only
  have hbody : (mpEncode v ++ [a, b]).take ((mpEncode v ++ [a, b]).length - 2) =
      mpEncode v := by
    rw [hlen, Nat.add_sub_cancel, List.take_left]
  rw [hbody]
  have hdec : mpDecodeV (mpEncode v).length (mpEncode v) = some (v, []) := by
    have h1 := (mpDecode_roundtrip (mpEncode v).length).1 v hwf (mpHeight_le_encLength v) []
    rwa [List.append_nil] at h1
  rw [hdec]

/-! ## C1 — codec round trip and padding -/

/-- C1: for every msgpack-encodable array value with a string head and every
prime in [0, 0xFFFF], decoding the encoding returns the head string and the
tail; each encode updates the counter to (num + prime) AND 0xFF and appends
exactly the two bytes (num >> 4) AND 0xF and num AND 0xF, so two successive
encodes of the same value differ only in those last two bytes, each of which
lies in [0, 15]. -/
theorem c1_codec_roundtrip (prime num : Nat) (s : List Nat) (tl : List MPVal)
    (hprime : prime ≤ 65535) (hwf : MPVal.wf (.arr (.str s :: tl))) :
    Socket.decode_message (Socket.encode_message prime num (.arr (.str s :: tl))).2 =
      .ok s tl ∧
    Socket.encode_message prime num (.arr (.str s :: tl)) =
      ((num + prime) % 256,
        mpEncode (.arr (.str s :: tl)) ++
          [(num + prime) % 256 / 16 % 16, (num + prime) % 256 % 16]) ∧
    (num + prime) % 256 / 16 % 16 < 16 ∧ (num + prime) % 256 % 16 < 16 ∧
    (Socket.encode_message prime ((num + prime) % 256) (.arr (.str s :: tl))).2 =
      mpEncode (.arr (.str s :: tl)) ++
        [((num + prime) % 256 + prime) % 256 / 16 % 16,
          ((num + prime) % 256 + prime) % 256 % 16] := by
  refine ⟨?_, rfl, Nat.mod_lt _ (by norm_num), Nat.mod_lt _ (by norm_num), rfl⟩
  show Socket.decode_message (mpEncode (.arr (.str s :: tl)) ++ [_, _]) = _
  rw [decode_message_encoding s tl hwf]

/-- C1 witness: the round trip at the ping message `["po"]` (UTF-8 bytes
112, 111) with prime 11 and counter 0; the two padding bytes are 0x00 0x0B. -/
theorem c1_witness :
    Socket.decode_message
        (Socket.encode_message 11 0 (.arr [.str [112, 111]])).2 =
      Socket.DecodeOutcome.ok [112, 111] [] ∧
    Socket.encode_message 11 0 (.arr [.str [112, 111]]) =
      (11, mpEncode (.arr [.str [112, 111]]) ++ [0, 11]) := by
  have hwf : MPVal.wf (.arr [.str [112, 111]]) := by
    refine .arr (by norm_num) ?_
    intro v hv
    rw [List.mem_singleton] at hv
    subst hv
    exact .str (by norm_num)
  have h := c1_codec_roundtrip 11 0 [112, 111] [] (by norm_num) hwf
  exact ⟨h.1, h.2.1⟩

/-! ## C3 — decode failure behaviour -/

/-- C3 counterexample: the claim states `decode_message` returns an error
value (`DecodeNotArray`) when the decoded msgpack value is not an array; on
the input 0xC0 0x00 0x00 (msgpack nil plus two padding bytes) the code
instead aborts in `as_array_mut().unwrap()`. -/
theorem c3_counterexample :
    Socket.decode_message [0xc0, 0, 0] = Socket.DecodeOutcome.panicked := by
  unfold Socket.decode_message
  norm_num
  simp [mpDecodeV.eq_def]

/-- C3 (amended): `decode_message` returns the `MsgpackError` error value
exactly when msgpack decoding of the truncated input fails (in particular
for inputs of length 2, whose body is empty); it aborts — it does not return
an error value — for inputs shorter than 2 bytes (`msg.len() - 2`
underflows), for a decoded value that is not an array, and for an empty
array or a non-string head; for an array with a string head it returns the
head and tail.  There is no `DecodeTooShort`/`DecodeNotArray`/`DecodeNoType`
error path, and the library can abort outside the voxelizer chunk
invariant. -/
theorem c3_decode_behaviour :
    (∀ msg : List Nat, msg.length < 2 →
        Socket.decode_message msg = .panicked) ∧
    (∀ msg : List Nat, msg.length = 2 →
        Socket.decode_message msg = .err) ∧
    (∀ msg : List Nat, ¬ msg.length < 2 →
        mpDecodeV (msg.take (msg.length - 2)).length (msg.take (msg.length - 2)) = none →
        Socket.decode_message msg = .err) ∧
    (∀ (msg : List Nat) (v : MPVal) (r : List Nat), ¬ msg.length < 2 →
        mpDecodeV (msg.take (msg.length - 2)).length (msg.take (msg.length - 2)) =
          some (v, r) →
        ((∀ vs : List MPVal, v ≠ .arr vs) → Socket.decode_message msg = .panicked) ∧
        (v = .arr [] → Socket.decode_message msg = .panicked) ∧
        (∀ (s : List Nat) (tl : List MPVal), v = .arr (.str s :: tl) →
            Socket.decode_message msg = .ok s tl)) := by
  refine ⟨?_, ?_, ?_, ?_⟩
  · intro msg h
    unfold Socket.decode_message
    rw [if_pos h]
  · intro msg h
    unfold Socket.decode_message
    rw [if_neg (by omega)]
    have hb : msg.take (msg.length - 2) = [] := by
      rw [h]
      rfl
    rw [hb]
    simp [mpDecodeV.eq_def]
  · intro msg h hdec
    unfold Socket.decode_message
    rw [if_neg h]
    dsimp only
    rw [hdec]
  · intro msg v r h hdec
    refine ⟨?_, ?_, ?_⟩
    · intro hnotarr
      unfold Socket.decode_message
      rw [if_neg h]
      dsimp only
      rw [hdec]
      cases v with
      | arr vs => exact absurd rfl (hnotarr vs)
      | nil => rfl
      | bool b => rfl
      | uint n => rfl
      | str s2 => rfl
    · intro hempty
      subst hempty
      unfold Socket.decode_message
      rw [if_neg h]
      dsimp only
      rw [hdec]
    · intro s2 tl hv
      subst hv
      unfold Socket.decode_message
      rw [if_neg h]
      dsimp only
      rw [hdec]

/-- C3 witness: the short-input branch at the one-byte input 0x05. -/
theorem c3_witness : Socket.decode_message [5] = Socket.DecodeOutcome.panicked :=
  c3_decode_behaviour.1 [5] (by norm_num)

/-! ## C2 helper lemmas — the A* search -/

/-- Selecting the minimum entry permutes the open list. -/
theorem pickMin_perm (f : Map.SEntry → Nat) :
    ∀ (es : List Map.SEntry) (e : Map.SEntry),
      List.Perm ((Map.pickMin f e es).1 :: (Map.pickMin f e es).2) (e :: es) := by
  intro es
  induction es with
  | nil => intro e; simp [Map.pickMin]
  | cons x xs ih =>
      intro e
      unfold Map.pickMin
      split
      · dsimp only
        exact (List.Perm.swap x _ _).trans (((ih e).cons x).trans (List.Perm.swap e x xs))
      · dsimp only
        exact (List.Perm.swap e _ _).trans ((ih x).cons e)

/-- The selected entry belongs to the open list. -/
theorem pickMin_mem (f : Map.SEntry → Nat) (es : List Map.SEntry) (e : Map.SEntry) :
    (Map.pickMin f e es).1 ∈ e :: es :=
  (pickMin_perm f es e).mem_iff.1 (List.mem_cons_self _ _)

/-- The remaining entries belong to the open list. -/
theorem pickMin_rest_mem (f : Map.SEntry → Nat) (es : List Map.SEntry) (e : Map.SEntry) :
    ∀ q ∈ (Map.pickMin f e es).2, q ∈ e :: es := by
  intro q hq
  exact (pickMin_perm f es e).mem_iff.1 (List.mem_cons_of_mem _ hq)

/-- The remaining list is one entry shorter. -/
theorem pickMin_rest_length (f : Map.SEntry → Nat) (es : List Map.SEntry) (e : Map.SEntry) :
    (Map.pickMin f e es).2.length = es.length := by
  have h := (pickMin_perm f es e).length_eq
  simpa using h

/-- A chain is nonempty. -/
theorem Chain_ne_nil {step : Map.Cell → Map.Cell → Prop} {a c : Map.Cell}
    {l : List Map.Cell} (h : Map.Chain step a l c) : l ≠ [] := by
  cases h <;> simp

/-- The head of a chain is its start. -/
theorem Chain_head? {step : Map.Cell → Map.Cell → Prop} {a c : Map.Cell}
    {l : List Map.Cell} (h : Map.Chain step a l c) : l.head? = some a := by
  cases h <;> rfl

/-- The last element of a chain is its end. -/
theorem Chain_getLast? {step : Map.Cell → Map.Cell → Prop} :
    ∀ {a c : Map.Cell} {l : List Map.Cell}, Map.Chain step a l c → l.getLast? = some c := by
  intro a c l h
  induction h with
  | single b => rfl
  | @cons a2 b2 c2 l2 hstep htail ih =>
      have hne := Chain_ne_nil htail
      obtain ⟨x, xs, hl2⟩ := List.exists_cons_of_ne_nil hne
      subst hl2
      rw [List.getLast?_cons_cons]
      exact ih

/-- Extending a chain by one allowed step. -/
theorem Chain_append_step {step : Map.Cell → Map.Cell → Prop} :
    ∀ {a c d : Map.Cell} {l : List Map.Cell},
      Map.Chain step a l c → step c d → Map.Chain step a (l ++ [d]) d := by
  intro a c d l h
  induction h with
  | single a => exact fun hs => .cons hs (.single d)
  | cons hstep htail ih => exact fun hs => .cons hstep (ih hs)

/-- A step prepended to reachability. -/
theorem Reach_head_step {step : Map.Cell → Map.Cell → Prop} {a y b : Map.Cell}
    (hs : step a y) (h : Map.Reach step y b) : Map.Reach step a b := by
  induction h with
  | refl => exact .tail .refl hs
  | tail hr hstep ih => exact .tail ih hstep

/-- A chain witnesses reachability. -/
theorem Chain_reach {step : Map.Cell → Map.Cell → Prop} :
    ∀ {a c : Map.Cell} {l : List Map.Cell}, Map.Chain step a l c → Map.Reach step a c := by
  intro a c l h
  induction h with
  | single a => exact .refl
  | cons hstep _ ih => exact Reach_head_step hstep ih

/-- A true boolean chain check over `stepB` yields reachability between its
endpoints. -/
theorem chainCheck_reach (w : Map.Grid3) :
    ∀ (l : List Map.Cell) (a b : Map.Cell),
      Map.chainCheck (Map.stepB w) l = true → l.head? = some a → l.getLast? = some b →
      Map.Reach (Map.Step w) a b := by
  intro l
  induction l with
  | nil => intro a b _ hh; cases hh
  | cons x t ih =>
      intro a b hc hh hl
      rw [List.head?_cons, Option.some.injEq] at hh
      subst hh
      cases t with
      | nil =>
          rw [List.getLast?_singleton, Option.some.injEq] at hl
          subst hl
          exact .refl
      | cons y t2 =>
          rw [Map.chainCheck, Bool.and_eq_true] at hc
          have hstep : Map.Step w x y := by
            rw [Map.stepB, List.any_eq_true] at hc
            obtain ⟨q, hq, hqb⟩ := hc.1
            rw [beq_iff_eq] at hqb
            exact List.mem_map.2 ⟨q, hq, hqb⟩
          rw [List.getLast?_cons_cons] at hl
          exact Reach_head_step hstep (ih y b hc.2 rfl hl)

/-- Filters by a weaker predicate are at most as long. -/
theorem filter_imp_length_le (p q : Map.Cell → Bool) (himp : ∀ x, p x = true → q x = true) :
    ∀ l : List Map.Cell, (l.filter p).length ≤ (l.filter q).length := by
  intro l
  induction l with
  | nil => simp
  | cons a t ih =>
      by_cases hp : p a = true
      · rw [List.filter_cons_of_pos hp, List.filter_cons_of_pos (himp a hp)]
        simpa using ih
      · rw [List.filter_cons_of_neg (by simpa using hp)]
        by_cases hq : q a = true
        · rw [List.filter_cons_of_pos hq]
          exact le_trans ih (by simp)
        · rw [List.filter_cons_of_neg (by simpa using hq)]
          exact ih

/-- Marking a present, unmarked cell strictly shrinks the unvisited part of
the universe. -/
theorem filter_unvisited_lt (uni : List Map.Cell) (c : Map.Cell) (visited : List Map.Cell)
    (hc : c ∈ uni) (hnv : c ∉ visited) :
    (uni.filter (fun x => ¬ x ∈ (c :: visited))).length <
      (uni.filter (fun x => ¬ x ∈ visited)).length := by
  have himp : ∀ x : Map.Cell, (decide (¬ x ∈ (c :: visited))) = true →
      (decide (¬ x ∈ visited)) = true := by
    intro x hx
    rw [decide_eq_true_eq] at hx
    rw [decide_eq_true_eq]
    intro hmem
    exact hx (List.mem_cons_of_mem c hmem)
  induction uni with
  | nil => cases hc
  | cons a t ih =>
      by_cases ha : a = c
      · subst ha
        rw [List.filter_cons_of_neg (by simp), List.filter_cons_of_pos (by simpa using hnv)]
        have hmono := filter_imp_length_le _ _ himp t
        simp only [List.length_cons]
        omega
      · rcases List.mem_cons.1 hc with heq | hct
        · exact absurd heq.symm ha
        · by_cases hav : a ∈ visited
          · rw [List.filter_cons_of_neg (by simp [hav]),
              List.filter_cons_of_neg (by simp [hav])]
            exact ih hct
          · rw [List.filter_cons_of_pos (by simp [List.mem_cons, ha, hav]),
              List.filter_cons_of_pos (by simpa using hav)]
            simp only [List.length_cons]
            have := ih hct
            omega

/-- Membership in the cell universe of a grid. -/
theorem mem_allCells (w : Map.Grid3) (c : Map.Cell) :
    c ∈ Map.allCells w ↔ c.1 < w.nx ∧ c.2.1 < w.ny ∧ c.2.2 < w.nz := by
  obtain ⟨x, y, z⟩ := c
  constructor
  · intro h
    simp only [Map.allCells, List.mem_flatMap, List.mem_map, List.mem_range] at h
    obtain ⟨a, ha, b, hb, d, hd, heq⟩ := h
    injection heq with h1 h23
    injection h23 with h2 h3
    subst h1
    subst h2
    subst h3
    exact ⟨ha, hb, hd⟩
  · intro ⟨h1, h2, h3⟩
    simp only [Map.allCells, List.mem_flatMap, List.mem_map, List.mem_range]
    exact ⟨x, h1, y, h2, z, h3, rfl⟩

/-- Neighbour cells stay within the grid size on every axis. -/
theorem neighbours_mem_bounds (c s : Map.Cell) (e : Bool) :
    ∀ n ∈ Map.neighbours c s e, n.1 < s.1 ∧ n.2.1 < s.2.1 ∧ n.2.2 < s.2.2 := by
  intro n hn
  unfold Map.neighbours at hn
  obtain ⟨q, _, hfq⟩ := List.mem_filterMap.1 hn
  split at hfq
  · next hcond =>
      obtain ⟨h1, h2, h3, h4, h5, h6⟩ := hcond
      cases hfq
      dsimp only
      exact ⟨by omega, by omega, by omega⟩
  · cases hfq

/-- Successor cells of `find_path` lie in the cell universe. -/
theorem successors_mem_allCells (w : Map.Grid3) (a : Map.Cell) :
    ∀ q ∈ Map.successors w a, q.1 ∈ Map.allCells w := by
  intro q hq
  unfold Map.successors at hq
  obtain ⟨c, hc, hfc⟩ := List.mem_filterMap.1 hq
  have hcb := neighbours_mem_bounds a w.size false c hc
  have hq1 : q.1 = c := by
    split at hfc
    · split at hfc
      · cases hfc; rfl
      · cases hfc; rfl
    · split at hfc
      · cases hfc; rfl
      · cases hfc
  rw [hq1, mem_allCells]
  exact hcb

/-- A successor list has at most 14 entries (the 14-cell neighbourhood). -/
theorem successors_length_le (w : Map.Grid3) (a : Map.Cell) :
    (Map.successors w a).length ≤ 14 := by
  unfold Map.successors
  refine le_trans (List.length_filterMap_le _ _) ?_
  unfold Map.neighbours
  refine le_trans (List.length_filterMap_le _ _) ?_
  simp

/-- Soundness of the search loop: a returned path is a chain from the start
to a goal cell. -/
theorem astar_loop_sound (succ : Map.Cell → List (Map.Cell × Nat)) (goal : Map.Cell → Bool)
    (h : Map.Cell → Nat) (start : Map.Cell) :
    ∀ (fuel : Nat) (open_ : List Map.SEntry) (visited : List Map.Cell),
      (∀ en ∈ open_, Map.Chain (Map.StepOf succ) start en.path.reverse en.cell) →
      ∀ (p : List Map.Cell) (cost : Nat),
        Map.astar_loop succ goal h fuel open_ visited = some (p, cost) →
        ∃ c, goal c = true ∧ Map.Chain (Map.StepOf succ) start p c := by
  intro fuel
  induction fuel with
  | zero =>
      intro open_ visited _ p cost hrun
      simp [Map.astar_loop] at hrun
  | succ fuel ih =>
      intro open_ visited hinv p cost hrun
      cases open_ with
      | nil => simp [Map.astar_loop] at hrun
      | cons e es =>
          rw [Map.astar_loop] at hrun
          split at hrun
          · exact ih _ _ (fun en hen => hinv en (pickMin_rest_mem _ es e en hen)) p cost hrun
          · split at hrun
            · next hgoal =>
                rw [Option.some.injEq, Prod.mk.injEq] at hrun
                obtain ⟨hp, _⟩ := hrun
                subst hp
                exact ⟨_, hgoal, hinv _ (pickMin_mem _ es e)⟩
            · refine ih _ _ ?_ p cost hrun
              intro en hen
              rcases List.mem_append.1 hen with hrest | hnew
              · exact hinv en (pickMin_rest_mem _ es e en hrest)
              · obtain ⟨q, hq, hqe⟩ := List.mem_map.1 hnew
                subst hqe
                dsimp only
                rw [List.reverse_cons]
                refine Chain_append_step (hinv _ (pickMin_mem _ es e)) ?_
                exact List.mem_map.2 ⟨q, hq, rfl⟩

/-- Completeness of the search loop: when the loop exhausts its open list
(returning `none`), no reachable cell satisfies the goal.  The measure
hypothesis is maintained because every iteration either drops an entry or
permanently visits one of the finitely many universe cells. -/
theorem astar_loop_complete (succ : Map.Cell → List (Map.Cell × Nat)) (goal : Map.Cell → Bool)
    (h : Map.Cell → Nat) (start : Map.Cell) (uni : List Map.Cell)
    (hsucc : ∀ (a : Map.Cell) (q : Map.Cell × Nat), q ∈ succ a → q.1 ∈ uni)
    (hslen : ∀ a : Map.Cell, (succ a).length ≤ 14) :
    ∀ (fuel : Nat) (open_ : List Map.SEntry) (visited : List Map.Cell),
      15 * (uni.filter (fun x => ¬ x ∈ visited)).length + open_.length < fuel →
      (∀ en ∈ open_, en.cell ∈ uni) →
      (start ∈ visited ∨ ∃ en ∈ open_, en.cell = start) →
      (∀ c ∈ visited, goal c = false) →
      (∀ c ∈ visited, ∀ q ∈ succ c, q.1 ∈ visited ∨ ∃ en ∈ open_, en.cell = q.1) →
      Map.astar_loop succ goal h fuel open_ visited = none →
      ∀ t, Map.Reach (Map.StepOf succ) start t → goal t = false := by
  intro fuel
  induction fuel with
  | zero =>
      intro open_ visited hm
      exact absurd hm (by omega)
  | succ fuel ih =>
      intro open_ visited hm hopen hstart hgoalv hclosed hrun t hreach
      cases open_ with
      | nil =>
          have hsv : start ∈ visited := by
            rcases hstart with hv | ⟨en, hen, _⟩
            · exact hv
            · cases hen
          have hall : ∀ u, Map.Reach (Map.StepOf succ) start u → u ∈ visited := by
            intro u hu
            induction hu with
            | refl => exact hsv
            | tail hr hstep ihr =>
                obtain ⟨q, hq, hq1⟩ := List.mem_map.1 hstep
                rcases hclosed _ ihr q hq with hv | ⟨en, hen, _⟩
                · exact hq1 ▸ hv
                · cases hen
          exact hgoalv t (hall t hreach)
      | cons e es =>
          rw [Map.astar_loop] at hrun
          split at hrun
          · next hvis =>
              refine ih ((Map.pickMin (fun s => s.cost + h s.cell) e es).2) visited ?_ ?_ ?_
                hgoalv ?_ hrun t hreach
              · rw [pickMin_rest_length]
                simp only [List.length_cons] at hm
                omega
              · intro en hen
                exact hopen en (pickMin_rest_mem _ es e en hen)
              · rcases hstart with hv | ⟨en, hen, hc⟩
                · exact Or.inl hv
                · rcases List.mem_cons.1 ((pickMin_perm (fun s => s.cost + h s.cell) es e).mem_iff.2 hen) with
                    he1 | he2
                  · exact Or.inl (by rw [← hc, he1]; exact hvis)
                  · exact Or.inr ⟨en, he2, hc⟩
              · intro c hc q hq
                rcases hclosed c hc q hq with hv | ⟨en, hen, hcell⟩
                · exact Or.inl hv
                · rcases List.mem_cons.1 ((pickMin_perm (fun s => s.cost + h s.cell) es e).mem_iff.2 hen) with
                    he1 | he2
                  · exact Or.inl (by rw [← hcell, he1]; exact hvis)
                  · exact Or.inr ⟨en, he2, hcell⟩
          · split at hrun
            · cases hrun
            · next hvis hng =>
                have hgfalse : goal (Map.pickMin (fun s => s.cost + h s.cell) e es).1.cell = false :=
                  Bool.eq_false_iff.2 hng
                have hPuni : (Map.pickMin (fun s => s.cost + h s.cell) e es).1.cell ∈ uni :=
                  hopen _ (pickMin_mem _ es e)
                refine ih _ ((Map.pickMin (fun s => s.cost + h s.cell) e es).1.cell :: visited)
                  ?_ ?_ ?_ ?_ ?_ hrun t hreach
                · have hu := filter_unvisited_lt uni
                    (Map.pickMin (fun s => s.cost + h s.cell) e es).1.cell visited hPuni hvis
                  have hlen1 := pickMin_rest_length (fun s => s.cost + h s.cell) es e
                  have hlen2 := hslen (Map.pickMin (fun s => s.cost + h s.cell) e es).1.cell
                  simp only [List.length_cons] at hm
                  rw [List.length_append, List.length_map]
                  omega
                · intro en hen
                  rcases List.mem_append.1 hen with hrest | hnew
                  · exact hopen en (pickMin_rest_mem _ es e en hrest)
                  · obtain ⟨q, hq, hqe⟩ := List.mem_map.1 hnew
                    subst hqe
                    exact hsucc _ q hq
                · rcases hstart with hv | ⟨en, hen, hc⟩
                  · exact Or.inl (List.mem_cons_of_mem _ hv)
                  · rcases List.mem_cons.1 ((pickMin_perm (fun s => s.cost + h s.cell) es e).mem_iff.2 hen) with
                      he1 | he2
                    · exact Or.inl (by rw [← hc, he1]; exact List.mem_cons_self _ _)
                    · exact Or.inr ⟨en, List.mem_append_left _ he2, hc⟩
                · intro c hc
                  rcases List.mem_cons.1 hc with hc1 | hc2
                  · rw [hc1]
                    exact hgfalse
                  · exact hgoalv c hc2
                · intro c hc q hq
                  rcases List.mem_cons.1 hc with hc1 | hc2
                  · refine Or.inr ⟨⟨q.1, (Map.pickMin (fun s => s.cost + h s.cell) e es).1.cost + q.2,
                      q.1 :: (Map.pickMin (fun s => s.cost + h s.cell) e es).1.path⟩, ?_, rfl⟩
                    refine List.mem_append_right _ ?_
                    refine List.mem_map.2 ⟨q, ?_, rfl⟩
                    rw [← hc1]
                    exact hq
                  · rcases hclosed c hc2 q hq with hv | ⟨en, hen, hcell⟩
                    · exact Or.inl (List.mem_cons_of_mem _ hv)
                    · rcases List.mem_cons.1 ((pickMin_perm (fun s => s.cost + h s.cell) es e).mem_iff.2 hen) with
                        he1 | he2
                      · exact Or.inl (by rw [← hcell, he1]; exact List.mem_cons_self _ _)
                      · exact Or.inr ⟨en, List.mem_append_left _ he2, hcell⟩

/-- The simplification loop always emits at least `last_cell`. -/
theorem simplify_loop_ne_nil (w : Map.Grid3) :
    ∀ (rest : List Map.Cell) (f l : Map.Cell), Map.simplify_loop w f l rest ≠ [] := by
  intro rest
  induction rest with
  | nil => intro f l; simp [Map.simplify_loop]
  | cons c t ih =>
      intro f l
      rw [Map.simplify_loop]
      split
      · simp
      · exact ih f c

/-- The simplification loop ends with the last path cell. -/
theorem simplify_loop_getLast? (w : Map.Grid3) :
    ∀ (rest : List Map.Cell) (f l : Map.Cell),
      (Map.simplify_loop w f l rest).getLast? = (l :: rest).getLast? := by
  intro rest
  induction rest with
  | nil => intro f l; rfl
  | cons c t ih =>
      intro f l
      rw [Map.simplify_loop]
      split
      · have hne := simplify_loop_ne_nil w t l c
        obtain ⟨x, xs, hx⟩ := List.exists_cons_of_ne_nil hne
        rw [hx, List.getLast?_cons_cons, ← hx, ih l c, List.getLast?_cons_cons]
      · rw [ih f c, List.getLast?_cons_cons]

/-- Path simplification keeps the first cell. -/
theorem simplify_path_head? (w : Map.Grid3) (p : List Map.Cell) (hp : p ≠ []) :
    (Map.simplify_path w p).head? = p.head? := by
  match p with
  | [] => exact absurd rfl hp
  | [a] => rfl
  | [a, b] => rfl
  | a :: b :: c :: rest => rfl

/-- Path simplification keeps the last cell. -/
theorem simplify_path_getLast? (w : Map.Grid3) (p : List Map.Cell) :
    (Map.simplify_path w p).getLast? = p.getLast? := by
  match p with
  | [] => rfl
  | [a] => rfl
  | [a, b] => rfl
  | a :: b :: c :: rest =>
      show (a :: Map.simplify_loop w a b (c :: rest)).getLast? = _
      have hne := simplify_loop_ne_nil w (c :: rest) a b
      obtain ⟨x, xs, hx⟩ := List.exists_cons_of_ne_nil hne
      rw [hx, List.getLast?_cons_cons, ← hx, simplify_loop_getLast? w (c :: rest) a b,
        List.getLast?_cons_cons]
      rw [List.getLast?_cons_cons, List.getLast?_cons_cons]

/-- A cell with a nonzero walkable mark lies inside the grid bounds. -/
theorem get_ne_zero_mem_allCells (w : Map.Grid3) (c : Map.Cell) (hc : w.get c ≠ 0) :
    c ∈ Map.allCells w := by
  by_cases hcond : c.1 < w.nx ∧ c.2.1 < w.ny ∧ c.2.2 < w.nz
  · exact (mem_allCells w c).2 hcond
  · rw [Map.Grid3.get, if_neg hcond] at hc
    exact absurd rfl hc

/-! ## C2 — A* correctness -/

set_option maxRecDepth 1000000 in
/-- C2 counterexample: on the flat `plateGrid` the walkable cells (2,2,2) and
(5,2,2) are connected (the straight chain checks), `find_path` returns the
two-element simplified sequence, and its only successive pair is not an
allowed successor step — refuting the claim that every successive pair of
the returned sequence is a successor step. -/
theorem c2_counterexample :
    Map.find_path plateGrid (2, 2, 2) (5, 2, 2) = some [(2, 2, 2), (5, 2, 2)] ∧
    plateGrid.get (2, 2, 2) = 1 ∧ plateGrid.get (5, 2, 2) = 1 ∧
    Map.chainCheck (Map.stepB plateGrid)
      [(2, 2, 2), (3, 2, 2), (4, 2, 2), (5, 2, 2)] = true ∧
    ¬ ((5, 2, 2) ∈ (Map.successors plateGrid (2, 2, 2)).map Prod.fst) := by
  refine ⟨by decide, by decide, by decide, by decide, by decide⟩

/-- C2 (amended): for walkable start and end cells of a well-formed walkable
grid, `find_path` returns Some sequence exactly when the cells are in the
same connected component under the successor relation, and the returned
sequence (the simplification of an A* chain) starts at the start cell and
ends at the end cell; its successive pairs need not be successor steps.  For
cells in different components it returns None. -/
theorem c2_find_path (w : Map.Grid3) (s e : Map.Cell) (hok : Map.GridOK w)
    (hs : w.get s ≠ 0) (he : w.get e ≠ 0) :
    (Map.Reach (Map.Step w) s e →
      ∃ p, Map.find_path w s e = some p ∧ p.head? = some s ∧ p.getLast? = some e) ∧
    (¬ Map.Reach (Map.Step w) s e → Map.find_path w s e = none) := by
  have hsmem : s ∈ Map.allCells w := get_ne_zero_mem_allCells w s hs
  have hinv : ∀ en ∈ [(⟨s, 0, [s]⟩ : Map.SEntry)],
      Map.Chain (Map.StepOf (Map.successors w)) s en.path.reverse en.cell := by
    intro en hen
    rw [List.mem_singleton] at hen
    subst hen
    exact .single s
  have hsound : ∀ (p : List Map.Cell) (cost : Nat),
      Map.astar (Map.successors w) (fun c => c == e) (Map.heuristic e) s (Map.allCells w) =
        some (p, cost) →
      Map.Chain (Map.Step w) s p e := by
    intro p cost hres
    obtain ⟨c, hc, hchain⟩ :=
      astar_loop_sound (Map.successors w) (fun c => c == e) (Map.heuristic e) s _ _ _ hinv
        p cost hres
    have hce : c = e := by simpa using hc
    exact hce ▸ hchain
  have hcomp : Map.astar (Map.successors w) (fun c => c == e) (Map.heuristic e) s
      (Map.allCells w) = none → ¬ Map.Reach (Map.Step w) s e := by
    intro hres hreach
    have hfilter : (Map.allCells w).filter (fun x => ¬ x ∈ ([] : List Map.Cell)) =
        Map.allCells w := by
      simp
    have hfalse := astar_loop_complete (Map.successors w) (fun c => c == e)
      (Map.heuristic e) s (Map.allCells w)
      (fun a q hq => successors_mem_allCells w a q hq) (successors_length_le w)
      (15 * (Map.allCells w).length + 2) [⟨s, 0, [s]⟩] []
      (by rw [hfilter]; simp)
      (by intro en hen; rw [List.mem_singleton] at hen; subst hen; exact hsmem)
      (Or.inr ⟨⟨s, 0, [s]⟩, List.mem_singleton.2 rfl, rfl⟩)
      (by intro c hc; cases hc)
      (by intro c hc; cases hc)
      hres e hreach
    simp at hfalse
  constructor
  · intro hreach
    cases hres : Map.astar (Map.successors w) (fun c => c == e) (Map.heuristic e) s
        (Map.allCells w) with
    | none => exact absurd hreach (hcomp hres)
    | some pc =>
        obtain ⟨p0, cost⟩ := pc
        have hchain := hsound p0 cost hres
        refine ⟨Map.simplify_path w p0, ?_, ?_, ?_⟩
        · unfold Map.find_path
          rw [hres]
        · rw [simplify_path_head? w p0 (Chain_ne_nil hchain), Chain_head? hchain]
        · rw [simplify_path_getLast? w p0, Chain_getLast? hchain]
  · intro hnreach
    cases hres : Map.astar (Map.successors w) (fun c => c == e) (Map.heuristic e) s
        (Map.allCells w) with
    | none =>
        unfold Map.find_path
        rw [hres]
    | some pc =>
        obtain ⟨p0, cost⟩ := pc
        exact absurd (Chain_reach (hsound p0 cost hres)) hnreach

set_option maxRecDepth 100000 in
/-- C2 witness: the amended theorem on `plateGrid` between the connected
walkable cells (2,2,2) and (5,2,2). -/
theorem c2_witness :
    ∃ p, Map.find_path plateGrid (2, 2, 2) (5, 2, 2) = some p ∧
      p.head? = some (2, 2, 2) ∧ p.getLast? = some (5, 2, 2) :=
  (c2_find_path plateGrid (2, 2, 2) (5, 2, 2) (by decide) (by decide) (by decide)).1
    (chainCheck_reach plateGrid [(2, 2, 2), (3, 2, 2), (4, 2, 2), (5, 2, 2)]
      (2, 2, 2) (5, 2, 2) (by decide) (by decide) (by decide))

end Krunker
